import Mathlib

/-!
# Verification of the UCX protocol-selection core (src/ucp/proto/proto_select.c)

Shallow embedding of the protocol-selection core.  Conventions:

* `size_t` values are `Nat`; the machine bound is the explicit constant
  `SIZE_MAX = 2^64 - 1`.  No arithmetic in the modelled code can overflow
  (the only increments `max_length + 1` / `midpoint + 1` are guarded by
  `< SIZE_MAX` in the source), so no `% 2^64` is needed.
* `double` cost arithmetic is modelled exactly over `ℚ`.
* Protocol-id sets (`ucp_proto_id_mask_t`, a `uint64_t`) are `Nat` masks;
  `ucs_for_each_bit` (ascending set-bit iteration over the 64-bit word) is
  a fold over `List.range UCP_PROTO_MAX_COUNT` guarded by `Nat.testBit`.
* The temporary threshold list built by the threshold builder is kept
  newest-entry-first: a cons models `ucs_array_append` at the tail and the
  list head models `ucs_array_last`.  It is reversed when copied into the
  final `SelectElem`, so the emitted table is in ascending order as in C.
* Unbounded C loops are modelled with explicit fuel; fuel exhaustion maps
  to an error, and the chosen fuel amounts are large enough that success
  results coincide with the C loops (the select-best loop is bounded by
  the 64-bit mask popcount, the outer sweep advances `msg_length` by at
  least 1 per iteration and is bounded by `SIZE_MAX`).
-/

deriving instance DecidableEq for Except

/-- Upper bound of `size_t` (64-bit). -/
def SIZE_MAX : Nat := 2 ^ 64 - 1

/-- Sentinel key of the one-entry MRU cache (`UINT64_MAX`). -/
def UINT64_MAX : Nat := 2 ^ 64 - 1

/-- Maximal number of registered protocols (one bit per id in a mask word). -/
def UCP_PROTO_MAX_COUNT : Nat := 64

/-- Evaluation offset used by the threshold builder (`UCP_PROTO_MSGLEN_EPSILON`). -/
def UCP_PROTO_MSGLEN_EPSILON : ℚ := 1 / 2

/-- Clear bit `i` of a `Nat` mask (C `m &= ~UCS_BIT(i)`). -/
def clearBit (m i : Nat) : Nat := if m.testBit i then m ^^^ (1 <<< i) else m

/-- Error statuses surfaced by the selection core (`ucs_status_t` error values). -/
inductive ucs_err_t
  | no_memory
  | no_elem
  | unsupported
deriving DecidableEq

/-- Affine cost function (`ucs_linear_func_t`): estimated time `c + m * x`. -/
structure ucs_linear_func_t where
  c : ℚ
  m : ℚ
deriving DecidableEq

/-- Evaluate an affine cost function (`ucs_linear_func_apply`). -/
def ucs_linear_func_apply (f : ucs_linear_func_t) (x : ℚ) : ℚ :=
  f.c + f.m * x

/-- Modelled from the spec: `ucs_linear_func_intersect` (ucs library, not under
src/).  Solving `f1(x) = f2(x)` has a real solution exactly when the slopes
differ; equal slopes produce a NaN/Inf quotient in C and a non-OK status. -/
def ucs_linear_func_intersect (f1 f2 : ucs_linear_func_t) : Option ℚ :=
  if f1.m = f2.m then none else some ((f2.c - f1.c) / (f1.m - f2.m))

/-- C cast `(size_t)x` of a non-negative double: truncation, i.e. the floor
for the non-negative arguments at which the builder uses it. -/
def sizeOfDouble (x : ℚ) : Nat := (⌊x⌋).toNat

/-- User threshold override (`cfg_thresh`): the `size_t` sentinels
`UCS_MEMUNITS_AUTO` / `UCS_MEMUNITS_INF` or a finite value. -/
inductive ucp_cfg_thresh_t
  | auto
  | inf
  | val (t : Nat)
deriving DecidableEq

/-- One capability range: affine cost valid up to `max_length`. -/
structure ucp_proto_perf_range_t where
  max_length : Nat
  perf : ucs_linear_func_t
deriving DecidableEq

/-- Per-protocol capabilities (`ucp_proto_caps_t`). -/
structure ucp_proto_caps_t where
  min_length : Nat
  ranges : List ucp_proto_perf_range_t
  cfg_thresh : ucp_cfg_thresh_t
deriving DecidableEq

/-- Temporary threshold entry (`ucp_proto_threshold_tmp_elem_t`). -/
structure ucp_proto_threshold_tmp_elem_t where
  max_length : Nat
  proto_id : Nat
deriving DecidableEq

/-- Final threshold entry (`ucp_proto_threshold_elem_t`); `proto_id` stands for
the registry id stored in `proto_config.proto` (the `select_param` copy and the
`priv` pointer of `ucp_proto_config_t` are memory-layout details not modelled). -/
structure ucp_proto_threshold_elem_t where
  max_msg_length : Nat
  proto_id : Nat
deriving DecidableEq

/-- Threshold-table lookup (`ucp_proto_thresholds_search_slow`): linear scan
from index 0 while `msg_length > thresholds[idx].max_msg_length`.  Walking off
the end of the array (a read past the final entry, undefined in C) is `none`. -/
def ucp_proto_thresholds_search_slow
    (thresholds : List ucp_proto_threshold_elem_t) (msg_length : Nat) :
    Option ucp_proto_threshold_elem_t :=
  match thresholds with
  | [] => none
  | e :: rest =>
    if msg_length > e.max_msg_length then
      ucp_proto_thresholds_search_slow rest msg_length
    else some e

/-- Append to the temporary threshold list (`ucp_proto_thresholds_append`),
consolidating with the newest entry when it carries the same protocol.  The
list is newest-first, so `ucs_array_last` is the head and appending is a cons.
The `ucs_array` storage is modelled as unbounded (its capacity/allocation
failure is outside src/). -/
def ucp_proto_thresholds_append (lst : List ucp_proto_threshold_tmp_elem_t)
    (max_length proto_id : Nat) : List ucp_proto_threshold_tmp_elem_t :=
  match lst with
  | e :: rest =>
    if e.proto_id = proto_id then ⟨max_length, proto_id⟩ :: rest
    else ⟨max_length, proto_id⟩ :: e :: rest
  | [] => [⟨max_length, proto_id⟩]

/-- Find the best protocol at evaluation point `x` (the first loop of
`ucp_proto_thresholds_select_best`): ascending set-bit scan keeping the
strictly smallest cost, so the lowest id wins ties.  `none` models the
`DBL_MAX` initial state surviving (asserted against in C). -/
def findBestAt (proto_perf : Nat → ucs_linear_func_t) (proto_mask : Nat) (x : ℚ) :
    Option (Nat × ℚ) :=
  (List.range UCP_PROTO_MAX_COUNT).foldl
    (fun best proto_id =>
      if proto_mask.testBit proto_id then
        let result := ucs_linear_func_apply (proto_perf proto_id) x
        match best with
        | none => some (proto_id, result)
        | some b => if result < b.2 then some (proto_id, result) else some b
      else best)
    none

/-- Find the first handoff point (the second loop of
`ucp_proto_thresholds_select_best`): the smallest intersection of the best
protocol with any other protocol still in the mask that lies strictly after
`start` and below `SIZE_MAX`, starting from `endv`. -/
def findMidpoint (proto_perf : Nat → ucs_linear_func_t) (proto_mask best_id : Nat)
    (start endv : Nat) : Nat :=
  (List.range UCP_PROTO_MAX_COUNT).foldl
    (fun midpoint proto_id =>
      if proto_mask.testBit proto_id then
        match ucs_linear_func_intersect (proto_perf proto_id) (proto_perf best_id) with
        | some x_intersect =>
          if (start : ℚ) < x_intersect then
            if x_intersect < (SIZE_MAX : ℚ) then
              min (sizeOfDouble x_intersect) midpoint
            else midpoint
          else midpoint
        | none => midpoint
      else midpoint)
    endv

/-- The lower-envelope loop of `ucp_proto_thresholds_select_best`, with
explicit fuel: pick the best protocol just past `start`, commit it up to the
nearest handoff point, drop it from the mask and continue.  `none` models a
failed `ucs_assert(proto_mask != 0)` / missing best (or exhausted fuel, which
never happens for the fuel used below). -/
def selectBestGo (proto_perf : Nat → ucs_linear_func_t) (fuel proto_mask : Nat)
    (start endv : Nat) (lst : List ucp_proto_threshold_tmp_elem_t) :
    Option (List ucp_proto_threshold_tmp_elem_t) :=
  match fuel with
  | 0 => none
  | fuel + 1 =>
    match findBestAt proto_perf proto_mask ((start : ℚ) + UCP_PROTO_MSGLEN_EPSILON) with
    | none => none
    | some best =>
      let mask2 := proto_mask ^^^ (1 <<< best.1)
      let midpoint := findMidpoint proto_perf mask2 best.1 start endv
      let lst2 := ucp_proto_thresholds_append lst midpoint best.1
      if midpoint < endv then selectBestGo proto_perf fuel mask2 (midpoint + 1) endv lst2
      else some lst2

/-- `ucp_proto_thresholds_select_best` over `[start, endv]`: the loop above,
with fuel `UCP_PROTO_MAX_COUNT` (an upper bound on the mask popcount, hence on
the number of iterations). -/
def ucp_proto_thresholds_select_best (proto_perf : Nat → ucs_linear_func_t)
    (proto_mask start endv : Nat) (lst : List ucp_proto_threshold_tmp_elem_t) :
    Option (List ucp_proto_threshold_tmp_elem_t) :=
  selectBestGo proto_perf UCP_PROTO_MAX_COUNT proto_mask start endv lst

/-- Accumulator of the range-narrowing scan in
`ucp_proto_thresholds_select_next` (`valid_proto_mask`, `forced_proto_mask`,
`max_length`, `proto_perf`). -/
structure ucp_select_next_state_t where
  valid_mask : Nat
  forced_mask : Nat
  max_length : Nat
  proto_perf : Nat → ucs_linear_func_t

/-- Pointwise update of the `proto_perf` array. -/
def updPerf (f : Nat → ucs_linear_func_t) (i : Nat) (v : ucs_linear_func_t) :
    Nat → ucs_linear_func_t :=
  fun j => if j = i then v else f j

/-- The first range containing `msg_length` (the inner range loop of
`ucp_proto_thresholds_select_next`: first index with
`msg_length <= ranges[i].max_length`). -/
def containingRange (caps : ucp_proto_caps_t) (msg_length : Nat) :
    Option ucp_proto_perf_range_t :=
  caps.ranges.find? (fun r => msg_length ≤ r.max_length)

/-- Containing-range part of the scan body (the inner `for` over ranges in
`ucp_proto_thresholds_select_next`): when a range contains `msg_length`, mark
the protocol valid, record its perf, and narrow `max_length`. -/
def selectNextRangeStep (proto_caps : Nat → ucp_proto_caps_t) (msg_length : Nat)
    (s : ucp_select_next_state_t) (proto_id : Nat) : ucp_select_next_state_t :=
  match containingRange (proto_caps proto_id) msg_length with
  | some r =>
    { s with
      valid_mask := s.valid_mask ||| (1 <<< proto_id)
      proto_perf := updPerf s.proto_perf proto_id r.perf
      max_length := min s.max_length r.max_length }
  | none => s

/-- User-threshold part of the scan body (the `cfg_thresh` block of
`ucp_proto_thresholds_select_next`). -/
def selectNextThreshStep (proto_caps : Nat → ucp_proto_caps_t) (msg_length : Nat)
    (s : ucp_select_next_state_t) (proto_id : Nat) : ucp_select_next_state_t :=
  match (proto_caps proto_id).cfg_thresh with
  | .auto => s
  | .inf => { s with valid_mask := clearBit s.valid_mask proto_id }
  | .val t =>
    if t ≤ msg_length then
      { s with forced_mask := s.forced_mask ||| (1 <<< proto_id) }
    else
      { s with
        max_length := min s.max_length (t - 1)
        valid_mask := clearBit s.valid_mask proto_id }

/-- Loop body of the range-narrowing scan for one protocol id (already known
to be in the input mask): skip on `min_length`, record the containing range
(validity, perf, `max_length` narrowing), then apply the user threshold. -/
def selectNextStep (proto_caps : Nat → ucp_proto_caps_t) (msg_length : Nat)
    (s : ucp_select_next_state_t) (proto_id : Nat) : ucp_select_next_state_t :=
  if msg_length < (proto_caps proto_id).min_length then s
  else
    selectNextThreshStep proto_caps msg_length
      (selectNextRangeStep proto_caps msg_length s proto_id) proto_id

/-- The range-narrowing scan of `ucp_proto_thresholds_select_next`: ascending
set-bit iteration over the input mask starting from
`(valid = 0, forced = 0, max_length = SIZE_MAX)`. -/
def selectNextCalc (proto_mask : Nat) (proto_caps : Nat → ucp_proto_caps_t)
    (msg_length : Nat) : ucp_select_next_state_t :=
  (List.range UCP_PROTO_MAX_COUNT).foldl
    (fun s proto_id =>
      if proto_mask.testBit proto_id then selectNextStep proto_caps msg_length s proto_id
      else s)
    ⟨0, 0, SIZE_MAX, fun _ => ⟨0, 0⟩⟩

/-- The mask actually competing in the lower envelope at `msg_length`: the
valid protocols, restricted to the user-forced ones when some forced protocol
is valid (the `forced_proto_mask &= valid_proto_mask` step of
`ucp_proto_thresholds_select_next`). -/
def competeMask (proto_mask : Nat) (proto_caps : Nat → ucp_proto_caps_t)
    (msg_length : Nat) : Nat :=
  let st := selectNextCalc proto_mask proto_caps msg_length
  if st.forced_mask &&& st.valid_mask ≠ 0 then st.forced_mask &&& st.valid_mask
  else st.valid_mask

/-- `ucp_proto_thresholds_select_next`: narrow the range at `msg_length`,
fail with `UNSUPPORTED` on an empty valid mask, restrict to the user-forced
protocols when some forced protocol is valid, and run the lower envelope on
`[msg_length, max_length]`.  Returns the updated list and `max_length`. -/
def ucp_proto_thresholds_select_next (proto_mask : Nat)
    (proto_caps : Nat → ucp_proto_caps_t) (lst : List ucp_proto_threshold_tmp_elem_t)
    (msg_length : Nat) : Except ucs_err_t (List ucp_proto_threshold_tmp_elem_t × Nat) :=
  let st := selectNextCalc proto_mask proto_caps msg_length
  if st.valid_mask = 0 then .error .unsupported
  else
    match ucp_proto_thresholds_select_best st.proto_perf
        (competeMask proto_mask proto_caps msg_length) msg_length st.max_length lst with
    | some lst2 => .ok (lst2, st.max_length)
    | none => .error .no_memory

/-- The outer sweep of `ucp_proto_select_elem_init_thresh`, with explicit
fuel: select a protocol range starting at `msg_length`, then continue from
`max_length + 1` until a range ending at `SIZE_MAX` has been emitted.  Fuel
exhaustion maps to an error (the sweep advances `msg_length` every iteration,
so the fuel used below never runs out). -/
def initThreshGo (proto_mask : Nat) (proto_caps : Nat → ucp_proto_caps_t) :
    Nat → Nat → List ucp_proto_threshold_tmp_elem_t →
    Except ucs_err_t (List ucp_proto_threshold_tmp_elem_t)
  | 0, _, _ => .error .no_memory
  | fuel + 1, msg_length, lst =>
    match ucp_proto_thresholds_select_next proto_mask proto_caps lst msg_length with
    | .error e => .error e
    | .ok (lst2, max_length) =>
      if max_length < SIZE_MAX then initThreshGo proto_mask proto_caps fuel (max_length + 1) lst2
      else .ok lst2

/-- `ucp_proto_select_elem_init_thresh`: run the sweep from 0 and copy the
accumulated list (newest-first) into the final ascending thresholds array. -/
def ucp_proto_select_elem_init_thresh (proto_mask : Nat)
    (proto_caps : Nat → ucp_proto_caps_t) :
    Except ucs_err_t (List ucp_proto_threshold_elem_t) :=
  match initThreshGo proto_mask proto_caps (2 ^ 64) 0 [] with
  | .error e => .error e
  | .ok lst => .ok (lst.reverse.map (fun t => ⟨t.max_length, t.proto_id⟩))

/-- Default (uninitialized) capability record. -/
def defaultCaps : ucp_proto_caps_t := ⟨0, [], .auto⟩

/-- `ucp_proto_select_init_protocols`: the registry outcome for one selection
parameter is a list of per-protocol `init` results (`none` = that protocol's
`init` failed and is excluded).  Builds the mask of successful protocols; an
empty mask is `NO_ELEM`.  The private-config buffer packing is a memory-layout
detail not modelled. -/
def ucp_proto_select_init_protocols (protos : List (Option ucp_proto_caps_t)) :
    Except ucs_err_t (Nat × (Nat → ucp_proto_caps_t)) :=
  let mask := (List.range protos.length).foldl
    (fun m proto_id => if ((protos.get? proto_id).getD none).isSome then m ||| (1 <<< proto_id) else m)
    0
  if mask = 0 then .error .no_elem
  else .ok (mask, fun proto_id => ((protos.get? proto_id).getD none).getD defaultCaps)

/-- `ucp_proto_select_elem_init`: collect capabilities, then build the
threshold table. -/
def ucp_proto_select_elem_init (protos : List (Option ucp_proto_caps_t)) :
    Except ucs_err_t (List ucp_proto_threshold_elem_t) :=
  match ucp_proto_select_init_protocols protos with
  | .error e => .error e
  | .ok mc => ucp_proto_select_elem_init_thresh mc.1 mc.2

/-- One-entry MRU cache (`proto_select->cache`): key and an advisory
reference into the hash's value storage, modelled by the key of the slot it
points at (`none` = NULL). -/
structure ucp_proto_select_cache_t where
  key : Nat
  value : Option Nat
deriving DecidableEq

/-- Selection container (`ucp_proto_select_t`): the hash from the packed
select-param key to the element, modelled as an association list, plus the
MRU cache. -/
structure ucp_proto_select_t where
  hash : List (Nat × List ucp_proto_threshold_elem_t)
  cache : ucp_proto_select_cache_t
deriving DecidableEq

/-- `ucp_proto_select_cache_reset`: sentinel key, NULL value. -/
def ucp_proto_select_cache_reset (ps : ucp_proto_select_t) : ucp_proto_select_t :=
  { ps with cache := ⟨UINT64_MAX, none⟩ }

/-- Result classes of `kh_put` (`UCS_KH_PUT_*`). -/
inductive ucs_kh_put_t
  | bucket_empty
  | bucket_clear
  | key_present
deriving DecidableEq

/-- Modelled from the spec: `kh_put` (khash, not under src/) inserts the key
if absent, yielding a fresh uninitialized bucket, and reports
`KEY_PRESENT` without modification when the key is already stored. -/
def kh_put (h : List (Nat × List ucp_proto_threshold_elem_t)) (k : Nat) :
    List (Nat × List ucp_proto_threshold_elem_t) × ucs_kh_put_t :=
  if (h.lookup k).isSome then (h, .key_present)
  else (h ++ [(k, [])], .bucket_empty)

/-- Modelled from the spec: `kh_del` (khash, not under src/) removes the slot
of key `k`. -/
def kh_del (h : List (Nat × List ucp_proto_threshold_elem_t)) (k : Nat) :
    List (Nat × List ucp_proto_threshold_elem_t) :=
  h.filter (fun kv => kv.1 != k)

/-- Write the value slot of key `k` (the writes through `&kh_value(...)`). -/
def kh_set (h : List (Nat × List ucp_proto_threshold_elem_t)) (k : Nat)
    (v : List ucp_proto_threshold_elem_t) :
    List (Nat × List ucp_proto_threshold_elem_t) :=
  h.map (fun kv => if kv.1 = k then (k, v) else kv)

/-- `ucp_proto_select_lookup_slow`: insert the key (asserting a fresh
bucket; `ucs_assert_always` is compiled in all builds, so a pre-existing key
aborts the process, modelled as the outer `none`), reset the MRU cache before
the value slot is used, build the element into the slot; on failure delete
the slot and return NULL, on success return the populated slot.  The returned
element stands for the pointer to the value slot, whose content the final
state's hash holds at `param`. -/
def ucp_proto_select_lookup_slow (protos : List (Option ucp_proto_caps_t))
    (proto_select : ucp_proto_select_t) (param : Nat) :
    Option (ucp_proto_select_t × Option (List ucp_proto_threshold_elem_t)) :=
  let put := kh_put proto_select.hash param
  if put.2 = ucs_kh_put_t.key_present then none
  else
    let ps1 := ucp_proto_select_cache_reset { proto_select with hash := put.1 }
    match ucp_proto_select_elem_init protos with
    | .error _ => some ({ ps1 with hash := kh_del ps1.hash param }, none)
    | .ok elem => some ({ ps1 with hash := kh_set ps1.hash param elem }, some elem)

/-- `ucp_proto_select_init`: empty hash, cache reset. -/
def ucp_proto_select_init : ucp_proto_select_t :=
  ucp_proto_select_cache_reset ⟨[], ⟨0, none⟩⟩

/-! ## Specification-side predicates

Definitions in this section follow the wording of the specification (valid
protocol, forcibly-disabled protocol, cost minimizer, region starts of the
sweep); the claim theorems compare them against the embedded code. -/

/-- A protocol is valid at `msg_length`: its `min_length` allows it and one of
its ranges contains `msg_length`. -/
def validAt (caps : ucp_proto_caps_t) (msg_length : Nat) : Prop :=
  caps.min_length ≤ msg_length ∧ (containingRange caps msg_length).isSome

instance (caps : ucp_proto_caps_t) (msg_length : Nat) : Decidable (validAt caps msg_length) := by
  unfold validAt; infer_instance

/-- A protocol is forcibly disabled at `msg_length` by its user threshold:
`cfg_thresh = INF`, or a finite `cfg_thresh` that is still above `msg_length`. -/
def forciblyDisabledAt (caps : ucp_proto_caps_t) (msg_length : Nat) : Prop :=
  caps.cfg_thresh = .inf ∨ ∃ t, caps.cfg_thresh = .val t ∧ msg_length < t

instance (caps : ucp_proto_caps_t) (msg_length : Nat) :
    Decidable (forciblyDisabledAt caps msg_length) :=
  match h : caps.cfg_thresh with
  | .auto => .isFalse (by rintro (hc | ⟨t, hc, _⟩) <;> rw [h] at hc <;> exact absurd hc (by simp))
  | .inf => .isTrue (.inl h)
  | .val t =>
    if ht : msg_length < t then .isTrue (.inr ⟨t, h, ht⟩)
    else .isFalse (by
      rintro (hc | ⟨u, hc, hu⟩) <;> rw [h] at hc
      · exact absurd hc (by simp)
      · cases hc; exact ht hu)

/-- A protocol is forced on at `msg_length` by its user threshold: a finite
`cfg_thresh` at or below `msg_length`. -/
def forcedAt (caps : ucp_proto_caps_t) (msg_length : Nat) : Prop :=
  ∃ t, caps.cfg_thresh = .val t ∧ t ≤ msg_length

instance (caps : ucp_proto_caps_t) (msg_length : Nat) : Decidable (forcedAt caps msg_length) :=
  match h : caps.cfg_thresh with
  | .auto => .isFalse (by rintro ⟨t, hc, _⟩; rw [h] at hc; exact absurd hc (by simp))
  | .inf => .isFalse (by rintro ⟨t, hc, _⟩; rw [h] at hc; exact absurd hc (by simp))
  | .val t =>
    if ht : t ≤ msg_length then .isTrue ⟨t, h, ht⟩
    else .isFalse (by rintro ⟨u, hc, hu⟩; rw [h] at hc; cases hc; exact ht hu)

/-- The cost a protocol's containing range assigns to `msg_length`, read at
the evaluation point `msg_length + 0.5`. -/
def protoCostAt (caps : ucp_proto_caps_t) (msg_length : Nat) : ℚ :=
  ucs_linear_func_apply ((containingRange caps msg_length).getD ⟨0, ⟨0, 0⟩⟩).perf
    ((msg_length : ℚ) + UCP_PROTO_MSGLEN_EPSILON)

/-- Claim C1's candidate set at `msg_length`: protocols of the selection mask
that are valid and not forcibly disabled there. -/
def claimCandidate (proto_caps : Nat → ucp_proto_caps_t) (proto_mask msg_length p : Nat) :
    Prop :=
  proto_mask.testBit p ∧ validAt (proto_caps p) msg_length ∧
    ¬ forciblyDisabledAt (proto_caps p) msg_length

instance (proto_caps : Nat → ucp_proto_caps_t) (proto_mask msg_length p : Nat) :
    Decidable (claimCandidate proto_caps proto_mask msg_length p) := by
  unfold claimCandidate; infer_instance

/-- Claim C1's selected protocol at `msg_length`, as the claim states it: the
candidate minimizing the cost at `msg_length + 0.5`, ties broken by the lowest
protocol id. -/
def claimBestProto (proto_caps : Nat → ucp_proto_caps_t) (proto_mask msg_length p : Nat) :
    Prop :=
  claimCandidate proto_caps proto_mask msg_length p ∧
  (∀ q, q < UCP_PROTO_MAX_COUNT → claimCandidate proto_caps proto_mask msg_length q →
    protoCostAt (proto_caps p) msg_length ≤ protoCostAt (proto_caps q) msg_length) ∧
  (∀ q, q < UCP_PROTO_MAX_COUNT → claimCandidate proto_caps proto_mask msg_length q →
    protoCostAt (proto_caps q) msg_length ≤ protoCostAt (proto_caps p) msg_length → p ≤ q)

instance (proto_caps : Nat → ucp_proto_caps_t) (proto_mask msg_length p : Nat) :
    Decidable (claimBestProto proto_caps proto_mask msg_length p) := by
  unfold claimBestProto; infer_instance

/-- The competition set actually used by the builder, in the specification's
terms: the candidates, restricted to the user-forced ones when at least one
forced protocol is a candidate. -/
def claimCompete (proto_caps : Nat → ucp_proto_caps_t) (proto_mask msg_length p : Nat) :
    Prop :=
  claimCandidate proto_caps proto_mask msg_length p ∧
  ((∃ q, q < UCP_PROTO_MAX_COUNT ∧ claimCandidate proto_caps proto_mask msg_length q ∧
      forcedAt (proto_caps q) msg_length) →
    forcedAt (proto_caps p) msg_length)

instance (proto_caps : Nat → ucp_proto_caps_t) (proto_mask msg_length p : Nat) :
    Decidable (claimCompete proto_caps proto_mask msg_length p) := by
  unfold claimCompete; infer_instance

/-- The amended C1 selected protocol: the cost minimizer at
`msg_length + 0.5` over the competition set, ties broken by the lowest id. -/
def claimBestProtoForced (proto_caps : Nat → ucp_proto_caps_t)
    (proto_mask msg_length p : Nat) : Prop :=
  claimCompete proto_caps proto_mask msg_length p ∧
  (∀ q, q < UCP_PROTO_MAX_COUNT → claimCompete proto_caps proto_mask msg_length q →
    protoCostAt (proto_caps p) msg_length ≤ protoCostAt (proto_caps q) msg_length) ∧
  (∀ q, q < UCP_PROTO_MAX_COUNT → claimCompete proto_caps proto_mask msg_length q →
    protoCostAt (proto_caps q) msg_length ≤ protoCostAt (proto_caps p) msg_length → p ≤ q)

instance (proto_caps : Nat → ucp_proto_caps_t) (proto_mask msg_length p : Nat) :
    Decidable (claimBestProtoForced proto_caps proto_mask msg_length p) := by
  unfold claimBestProtoForced; infer_instance

/-- Message lengths at which the outer sweep of the threshold builder starts a
region: 0, and one past each region's `max_length` as computed by the
range-narrowing scan. -/
inductive IsRegionStart (proto_mask : Nat) (proto_caps : Nat → ucp_proto_caps_t) : Nat → Prop
  | zero : IsRegionStart proto_mask proto_caps 0
  | step (msg_length : Nat) :
      IsRegionStart proto_mask proto_caps msg_length →
      (selectNextCalc proto_mask proto_caps msg_length).max_length < SIZE_MAX →
      IsRegionStart proto_mask proto_caps
        ((selectNextCalc proto_mask proto_caps msg_length).max_length + 1)

/-- Number of protocol ids in a selection mask (its population count; masks
are 64-bit words in C). -/
def maskCard (proto_mask : Nat) : Nat :=
  ((List.range UCP_PROTO_MAX_COUNT).filter proto_mask.testBit).length

/-- Claim C5's `max_length` formula, as the claim states it: the minimum of
`SIZE_MAX`, every valid protocol's containing-range `max_length`, and
`cfg_thresh - 1` for every protocol of the mask whose `cfg_thresh` is finite
and strictly greater than `msg_length`. -/
def claimMaxLength (proto_mask : Nat) (proto_caps : Nat → ucp_proto_caps_t)
    (msg_length : Nat) : Nat :=
  (List.range UCP_PROTO_MAX_COUNT).foldl
    (fun acc p =>
      if proto_mask.testBit p then
        let caps := proto_caps p
        let rangeTerm :=
          if caps.min_length ≤ msg_length then
            match containingRange caps msg_length with
            | some r => r.max_length
            | none => SIZE_MAX
          else SIZE_MAX
        let threshTerm :=
          match caps.cfg_thresh with
          | .val t => if msg_length < t then t - 1 else SIZE_MAX
          | _ => SIZE_MAX
        min acc (min rangeTerm threshTerm)
      else acc)
    SIZE_MAX

/-! ## Auxiliary definitions for the proofs -/

/-- Partial range-narrowing scan over protocol ids `0 .. n-1` (the scan state
after the first `n` loop iterations of `ucp_proto_thresholds_select_next`). -/
def selectNextCalcAux (proto_mask : Nat) (proto_caps : Nat → ucp_proto_caps_t)
    (msg_length n : Nat) : ucp_select_next_state_t :=
  (List.range n).foldl
    (fun s proto_id =>
      if proto_mask.testBit proto_id then selectNextStep proto_caps msg_length s proto_id
      else s)
    ⟨0, 0, SIZE_MAX, fun _ => ⟨0, 0⟩⟩

/-- Partial best-protocol scan over ids `0 .. n-1`. -/
def findBestAtAux (proto_perf : Nat → ucs_linear_func_t) (proto_mask : Nat) (x : ℚ)
    (n : Nat) : Option (Nat × ℚ) :=
  (List.range n).foldl
    (fun best proto_id =>
      if proto_mask.testBit proto_id then
        let result := ucs_linear_func_apply (proto_perf proto_id) x
        match best with
        | none => some (proto_id, result)
        | some b => if result < b.2 then some (proto_id, result) else some b
      else best)
    none

/-- Partial midpoint scan over ids `0 .. n-1`. -/
def findMidpointAux (proto_perf : Nat → ucs_linear_func_t) (proto_mask best_id : Nat)
    (start endv : Nat) (n : Nat) : Nat :=
  (List.range n).foldl
    (fun midpoint proto_id =>
      if proto_mask.testBit proto_id then
        match ucs_linear_func_intersect (proto_perf proto_id) (proto_perf best_id) with
        | some x_intersect =>
          if (start : ℚ) < x_intersect then
            if x_intersect < (SIZE_MAX : ℚ) then
              min (sizeOfDouble x_intersect) midpoint
            else midpoint
          else midpoint
        | none => midpoint
      else midpoint)
    endv

/-- How one protocol of the mask lowers `max_length` in the range-narrowing
scan: its containing range's `max_length` (when one exists), and
`cfg_thresh - 1` for a finite threshold above `msg_length`; protocols skipped
by the `min_length` check contribute nothing. -/
def stepContribution (caps : ucp_proto_caps_t) (msg_length : Nat) : Nat :=
  if msg_length < caps.min_length then SIZE_MAX
  else
    min
      (match containingRange caps msg_length with
        | some r => r.max_length
        | none => SIZE_MAX)
      (match caps.cfg_thresh with
        | .val t => if msg_length < t then t - 1 else SIZE_MAX
        | _ => SIZE_MAX)

/-- Partial amended-C5 `max_length` formula over ids `0 .. n-1`. -/
def claimMaxLengthAmendedAux (proto_mask : Nat) (proto_caps : Nat → ucp_proto_caps_t)
    (msg_length n : Nat) : Nat :=
  (List.range n).foldl
    (fun acc p =>
      if proto_mask.testBit p then
        let caps := proto_caps p
        if caps.min_length ≤ msg_length then
          let rangeTerm :=
            match containingRange caps msg_length with
            | some r => r.max_length
            | none => SIZE_MAX
          let threshTerm :=
            match caps.cfg_thresh with
            | .val t => if msg_length < t then t - 1 else SIZE_MAX
            | _ => SIZE_MAX
          min acc (min rangeTerm threshTerm)
        else acc
      else acc)
    SIZE_MAX

/-- The temporary threshold list is kept newest-first with strictly decreasing
`max_length` from the head. -/
def RSortedTmp (lst : List ucp_proto_threshold_tmp_elem_t) : Prop :=
  lst.Chain' (fun a b => b.max_length < a.max_length)

/-- How later builder work may change an already-accumulated temporary list:
entries are prepended, and the previous newest entry may be extended in
`max_length` by coalescing (its protocol unchanged); older entries are
untouched. -/
def SweepExtends (lst out : List ucp_proto_threshold_tmp_elem_t) : Prop :=
  (∃ ext, out = ext ++ lst) ∨
  (∃ ext h t h2, lst = h :: t ∧ out = ext ++ h2 :: t ∧
    h2.proto_id = h.proto_id ∧ h.max_length ≤ h2.max_length)

/-- Claim C5's `max_length` formula as amended: the `cfg_thresh - 1` term is
only contributed by protocols that pass the `min_length` check (the source
`continue`s past the whole loop body, user threshold included, when
`msg_length < min_length`). -/
def claimMaxLengthAmended (proto_mask : Nat) (proto_caps : Nat → ucp_proto_caps_t)
    (msg_length : Nat) : Nat :=
  (List.range UCP_PROTO_MAX_COUNT).foldl
    (fun acc p =>
      if proto_mask.testBit p then
        let caps := proto_caps p
        if caps.min_length ≤ msg_length then
          let rangeTerm :=
            match containingRange caps msg_length with
            | some r => r.max_length
            | none => SIZE_MAX
          let threshTerm :=
            match caps.cfg_thresh with
            | .val t => if msg_length < t then t - 1 else SIZE_MAX
            | _ => SIZE_MAX
          min acc (min rangeTerm threshTerm)
        else acc
      else acc)
    SIZE_MAX

/-- Largest length of the sweep region starting at `msg_length` (the
`max_length` the range-narrowing scan computes there). -/
def regionEnd (proto_mask : Nat) (proto_caps : Nat → ucp_proto_caps_t)
    (msg_length : Nat) : Nat :=
  (selectNextCalc proto_mask proto_caps msg_length).max_length

/-- The protocol id the lower envelope picks first at `msg_length`: the result
of the best-protocol scan over the competing mask just past `msg_length`. -/
def bestIdAt (proto_mask : Nat) (proto_caps : Nat → ucp_proto_caps_t)
    (msg_length p : Nat) : Prop :=
  ∃ c, findBestAt (selectNextCalc proto_mask proto_caps msg_length).proto_perf
      (competeMask proto_mask proto_caps msg_length)
      ((msg_length : ℚ) + UCP_PROTO_MSGLEN_EPSILON) = some (p, c)

/-- An emitted entry covering lengths `[s, mx]` with protocol `pid` is
consistent with the per-region competition: `pid` competes in every sweep
region its coverage meets, and it is the envelope's first pick at every region
start its coverage contains. -/
def entryCoverOK (proto_mask : Nat) (proto_caps : Nat → ucp_proto_caps_t)
    (s mx pid : Nat) : Prop :=
  (∀ m, IsRegionStart proto_mask proto_caps m → m ≤ mx →
    s ≤ regionEnd proto_mask proto_caps m →
    (competeMask proto_mask proto_caps m).testBit pid = true) ∧
  (∀ m, IsRegionStart proto_mask proto_caps m → s ≤ m → m ≤ mx →
    bestIdAt proto_mask proto_caps m pid)

/-- Coverage consistency of the whole temporary list (newest first): each
entry covers from just past the next-older entry's `max_length` (from 0 for
the oldest) up to its own `max_length`. -/
def rcoverOK (proto_mask : Nat) (proto_caps : Nat → ucp_proto_caps_t) :
    List ucp_proto_threshold_tmp_elem_t → Prop
  | [] => True
  | [e] => entryCoverOK proto_mask proto_caps 0 e.max_length e.proto_id
  | e :: f :: rest =>
    entryCoverOK proto_mask proto_caps (f.max_length + 1) e.max_length e.proto_id ∧
      rcoverOK proto_mask proto_caps (f :: rest)

/-- Coverage consistency of the final ascending table, starting at base `s`:
each entry covers from the base (then from just past its predecessor's
`max_msg_length`) up to its own `max_msg_length`. -/
def tableCoverOK (proto_mask : Nat) (proto_caps : Nat → ucp_proto_caps_t) :
    Nat → List ucp_proto_threshold_elem_t → Prop
  | _, [] => True
  | s, e :: rest =>
    entryCoverOK proto_mask proto_caps s e.max_msg_length e.proto_id ∧
      tableCoverOK proto_mask proto_caps (e.max_msg_length + 1) rest

/-! ## Concrete inputs used in the claim checks -/

/-- Two always-valid automatic protocols whose costs cross strictly between
integer lengths: protocol 0 costs `L`, protocol 1 costs `10.25`. -/
def exC1caps : Nat → ucp_proto_caps_t := fun proto_id =>
  if proto_id = 0 then ⟨0, [⟨SIZE_MAX, ⟨0, 1⟩⟩], .auto⟩
  else if proto_id = 1 then ⟨0, [⟨SIZE_MAX, ⟨41 / 4, 0⟩⟩], .auto⟩
  else defaultCaps

/-- Three always-valid protocols, two with finite user thresholds: protocol 0
(threshold 5, cost 0), protocol 1 (threshold 10, cost 1), protocol 2
(automatic, cost 2). -/
def exC3caps : Nat → ucp_proto_caps_t := fun proto_id =>
  if proto_id = 0 then ⟨0, [⟨SIZE_MAX, ⟨0, 0⟩⟩], .val 5⟩
  else if proto_id = 1 then ⟨0, [⟨SIZE_MAX, ⟨1, 0⟩⟩], .val 10⟩
  else if proto_id = 2 then ⟨0, [⟨SIZE_MAX, ⟨2, 0⟩⟩], .auto⟩
  else defaultCaps

/-- One automatic protocol (cost 0) next to a single user-forced protocol
(threshold 10, cost 1). -/
def exC3okCaps : Nat → ucp_proto_caps_t := fun proto_id =>
  if proto_id = 0 then ⟨0, [⟨SIZE_MAX, ⟨0, 0⟩⟩], .auto⟩
  else if proto_id = 1 then ⟨0, [⟨SIZE_MAX, ⟨1, 0⟩⟩], .val 10⟩
  else defaultCaps

/-- Protocol 0 has `min_length = 100` and user threshold 10; protocol 1 is an
unrestricted automatic protocol. -/
def exC5caps : Nat → ucp_proto_caps_t := fun proto_id =>
  if proto_id = 0 then ⟨100, [⟨SIZE_MAX, ⟨0, 0⟩⟩], .val 10⟩
  else if proto_id = 1 then ⟨0, [⟨SIZE_MAX, ⟨0, 0⟩⟩], .auto⟩
  else defaultCaps

/-- A registry with one always-valid automatic protocol. -/
def exSimpleProtos : List (Option ucp_proto_caps_t) :=
  [some ⟨0, [⟨SIZE_MAX, ⟨0, 0⟩⟩], .auto⟩]

/-- A registry with two always-valid automatic protocols, the second one
disabled by an infinite user threshold. -/
def exInfProtos : List (Option ucp_proto_caps_t) :=
  [some ⟨0, [⟨SIZE_MAX, ⟨0, 0⟩⟩], .auto⟩, some ⟨0, [⟨SIZE_MAX, ⟨1, 0⟩⟩], .inf⟩]

/-- A registry on which element construction fails (no protocol at all, so
`ucp_proto_select_init_protocols` reports `NO_ELEM`). -/
def exEmptyProtos : List (Option ucp_proto_caps_t) := []

/-! ## Bit-mask lemmas -/

theorem testBit_one_shiftLeft (n p : Nat) : (1 <<< n).testBit p = decide (p = n) := by
  rw [Nat.one_shiftLeft, Nat.testBit_two_pow]
  rcases eq_or_ne p n with h | h
  · simp [h]
  · simp [h, Ne.symm h]

theorem testBit_setBit (m n p : Nat) :
    (m ||| (1 <<< n)).testBit p = (m.testBit p || decide (p = n)) := by
  rw [Nat.testBit_or, testBit_one_shiftLeft]

theorem testBit_clearBit (m n p : Nat) :
    (clearBit m n).testBit p = (m.testBit p && !(decide (p = n))) := by
  unfold clearBit
  split
  · rename_i h
    rw [Nat.testBit_xor, testBit_one_shiftLeft]
    rcases eq_or_ne p n with rfl | hne
    · simp [h]
    · simp [hne]
  · rename_i h
    rcases eq_or_ne p n with rfl | hne
    · simp [Bool.not_eq_true] at h
      simp [h]
    · simp [hne]

theorem clearBit_lt_two_pow {m w : Nat} (h : m < 2 ^ w) (n : Nat) : clearBit m n < 2 ^ w := by
  unfold clearBit
  split
  · rename_i hb
    refine Nat.lt_pow_two_of_testBit _ (fun i hi => ?_)
    rw [Nat.testBit_xor, Nat.testBit_lt_two_pow (Nat.lt_of_lt_of_le h ?_), Bool.false_xor,
      Nat.one_shiftLeft, Nat.testBit_two_pow]
    · have : n < w := by
        by_contra hc
        exact absurd (Nat.testBit_lt_two_pow (Nat.lt_of_lt_of_le h
          (Nat.pow_le_pow_right (by norm_num) (Nat.le_of_not_lt hc)))) (by simp [hb])
      simp [Nat.ne_of_lt (Nat.lt_of_lt_of_le this hi)]
    · exact Nat.pow_le_pow_right (by norm_num) hi
  · exact h

theorem updPerf_self (f : Nat → ucs_linear_func_t) (i : Nat) (v : ucs_linear_func_t) :
    updPerf f i v i = v := by simp [updPerf]

theorem updPerf_ne (f : Nat → ucs_linear_func_t) (i j : Nat) (v : ucs_linear_func_t)
    (h : j ≠ i) : updPerf f i v j = f j := by simp [updPerf, h]

/-! ## Range-narrowing scan characterization -/

theorem selectNextCalcAux_zero (proto_mask : Nat) (proto_caps : Nat → ucp_proto_caps_t)
    (msg_length : Nat) :
    selectNextCalcAux proto_mask proto_caps msg_length 0 = ⟨0, 0, SIZE_MAX, fun _ => ⟨0, 0⟩⟩ :=
  rfl

theorem selectNextCalcAux_succ (proto_mask : Nat) (proto_caps : Nat → ucp_proto_caps_t)
    (msg_length n : Nat) :
    selectNextCalcAux proto_mask proto_caps msg_length (n + 1) =
      (if proto_mask.testBit n then
        selectNextStep proto_caps msg_length (selectNextCalcAux proto_mask proto_caps msg_length n) n
      else selectNextCalcAux proto_mask proto_caps msg_length n) := by
  unfold selectNextCalcAux
  rw [List.range_succ, List.foldl_append, List.foldl_cons, List.foldl_nil]

theorem selectNextCalc_eq_aux (proto_mask : Nat) (proto_caps : Nat → ucp_proto_caps_t)
    (msg_length : Nat) :
    selectNextCalc proto_mask proto_caps msg_length =
      selectNextCalcAux proto_mask proto_caps msg_length UCP_PROTO_MAX_COUNT :=
  rfl

theorem selectNextRangeStep_untouched (proto_caps : Nat → ucp_proto_caps_t) (msg_length : Nat)
    (s : ucp_select_next_state_t) (n p : Nat) (h : p ≠ n) :
    ((selectNextRangeStep proto_caps msg_length s n).valid_mask.testBit p = s.valid_mask.testBit p) ∧
    ((selectNextRangeStep proto_caps msg_length s n).forced_mask.testBit p = s.forced_mask.testBit p) ∧
    ((selectNextRangeStep proto_caps msg_length s n).proto_perf p = s.proto_perf p) := by
  unfold selectNextRangeStep
  split
  · exact ⟨by rw [testBit_setBit]; simp [h], rfl, updPerf_ne _ _ _ _ h⟩
  · exact ⟨rfl, rfl, rfl⟩

theorem selectNextThreshStep_untouched (proto_caps : Nat → ucp_proto_caps_t) (msg_length : Nat)
    (s : ucp_select_next_state_t) (n p : Nat) (h : p ≠ n) :
    ((selectNextThreshStep proto_caps msg_length s n).valid_mask.testBit p = s.valid_mask.testBit p) ∧
    ((selectNextThreshStep proto_caps msg_length s n).forced_mask.testBit p = s.forced_mask.testBit p) ∧
    ((selectNextThreshStep proto_caps msg_length s n).proto_perf p = s.proto_perf p) := by
  unfold selectNextThreshStep
  split
  · exact ⟨rfl, rfl, rfl⟩
  · exact ⟨by rw [testBit_clearBit]; simp [h], rfl, rfl⟩
  · split
    · exact ⟨rfl, by rw [testBit_setBit]; simp [h], rfl⟩
    · exact ⟨by rw [testBit_clearBit]; simp [h], rfl, rfl⟩

theorem selectNextStep_untouched (proto_caps : Nat → ucp_proto_caps_t) (msg_length : Nat)
    (s : ucp_select_next_state_t) (n p : Nat) (h : p ≠ n) :
    ((selectNextStep proto_caps msg_length s n).valid_mask.testBit p = s.valid_mask.testBit p) ∧
    ((selectNextStep proto_caps msg_length s n).forced_mask.testBit p = s.forced_mask.testBit p) ∧
    ((selectNextStep proto_caps msg_length s n).proto_perf p = s.proto_perf p) := by
  unfold selectNextStep
  split
  · exact ⟨rfl, rfl, rfl⟩
  · obtain ⟨h1, h2, h3⟩ := selectNextRangeStep_untouched proto_caps msg_length s n p h
    obtain ⟨g1, g2, g3⟩ := selectNextThreshStep_untouched proto_caps msg_length
      (selectNextRangeStep proto_caps msg_length s n) n p h
    exact ⟨g1.trans h1, g2.trans h2, g3.trans h3⟩

theorem selectNextRangeStep_forced (proto_caps : Nat → ucp_proto_caps_t) (msg_length : Nat)
    (s : ucp_select_next_state_t) (n : Nat) :
    (selectNextRangeStep proto_caps msg_length s n).forced_mask = s.forced_mask := by
  unfold selectNextRangeStep
  split <;> rfl

theorem selectNextThreshStep_perf (proto_caps : Nat → ucp_proto_caps_t) (msg_length : Nat)
    (s : ucp_select_next_state_t) (n : Nat) :
    (selectNextThreshStep proto_caps msg_length s n).proto_perf = s.proto_perf := by
  unfold selectNextThreshStep
  split
  · rfl
  · rfl
  · split <;> rfl

theorem selectNextRangeStep_valid_self (proto_caps : Nat → ucp_proto_caps_t)
    (msg_length : Nat) (s : ucp_select_next_state_t) (n : Nat) :
    (selectNextRangeStep proto_caps msg_length s n).valid_mask.testBit n =
      (s.valid_mask.testBit n || (containingRange (proto_caps n) msg_length).isSome) := by
  unfold selectNextRangeStep
  split
  · rename_i r hr
    rw [testBit_setBit, hr]
    simp
  · rename_i hr
    rw [hr]
    simp

theorem selectNextThreshStep_valid_self (proto_caps : Nat → ucp_proto_caps_t)
    (msg_length : Nat) (s : ucp_select_next_state_t) (n : Nat) :
    (selectNextThreshStep proto_caps msg_length s n).valid_mask.testBit n =
      (s.valid_mask.testBit n &&
        !(decide (forciblyDisabledAt (proto_caps n) msg_length))) := by
  unfold selectNextThreshStep
  split
  · rename_i ht
    have hnd : ¬ forciblyDisabledAt (proto_caps n) msg_length := by
      rintro (hd | ⟨u, hd, -⟩) <;> rw [ht] at hd <;> exact absurd hd (by simp)
    simp [hnd]
  · rename_i ht
    have hd : forciblyDisabledAt (proto_caps n) msg_length := Or.inl ht
    rw [testBit_clearBit]
    simp [hd]
  · rename_i t ht
    split
    · rename_i htm
      have hnd : ¬ forciblyDisabledAt (proto_caps n) msg_length := by
        rintro (hd | ⟨u, hd, hu⟩) <;> rw [ht] at hd
        · exact absurd hd (by simp)
        · cases hd; exact absurd htm (Nat.not_le.2 hu)
      simp [hnd]
    · rename_i htm
      have hd : forciblyDisabledAt (proto_caps n) msg_length :=
        Or.inr ⟨t, ht, Nat.lt_of_not_le htm⟩
      rw [testBit_clearBit]
      simp [hd]

theorem selectNextThreshStep_forced_self (proto_caps : Nat → ucp_proto_caps_t)
    (msg_length : Nat) (s : ucp_select_next_state_t) (n : Nat) :
    (selectNextThreshStep proto_caps msg_length s n).forced_mask.testBit n =
      (s.forced_mask.testBit n || (decide (forcedAt (proto_caps n) msg_length))) := by
  unfold selectNextThreshStep
  split
  · rename_i ht
    have hnf : ¬ forcedAt (proto_caps n) msg_length := by
      rintro ⟨u, hd, -⟩; rw [ht] at hd; exact absurd hd (by simp)
    simp [hnf]
  · rename_i ht
    have hnf : ¬ forcedAt (proto_caps n) msg_length := by
      rintro ⟨u, hd, -⟩; rw [ht] at hd; exact absurd hd (by simp)
    simp [hnf]
  · rename_i t ht
    split
    · rename_i htm
      have hf : forcedAt (proto_caps n) msg_length := ⟨t, ht, htm⟩
      rw [testBit_setBit]
      simp [hf]
    · rename_i htm
      have hnf : ¬ forcedAt (proto_caps n) msg_length := by
        rintro ⟨u, hd, hu⟩; rw [ht] at hd; cases hd; exact htm hu
      simp [hnf]

theorem selectNextStep_self_valid (proto_caps : Nat → ucp_proto_caps_t) (msg_length : Nat)
    (s : ucp_select_next_state_t) (n : Nat) (hv : s.valid_mask.testBit n = false) :
    ((selectNextStep proto_caps msg_length s n).valid_mask.testBit n = true ↔
      validAt (proto_caps n) msg_length ∧ ¬ forciblyDisabledAt (proto_caps n) msg_length) := by
  unfold selectNextStep
  split
  · rename_i hmin
    simp only [hv, Bool.false_eq_true, false_iff]
    rintro ⟨⟨hle, -⟩, -⟩
    exact absurd hmin (Nat.not_lt.2 hle)
  · rename_i hmin
    have hle : (proto_caps n).min_length ≤ msg_length := Nat.le_of_not_lt hmin
    rw [selectNextThreshStep_valid_self, selectNextRangeStep_valid_self, hv, Bool.false_or]
    unfold validAt
    rcases hs : (containingRange (proto_caps n) msg_length).isSome with _ | _
    · simp [hs]
    · simp [hs, hle]

theorem selectNextStep_self_forced (proto_caps : Nat → ucp_proto_caps_t) (msg_length : Nat)
    (s : ucp_select_next_state_t) (n : Nat) (hf : s.forced_mask.testBit n = false) :
    ((selectNextStep proto_caps msg_length s n).forced_mask.testBit n = true ↔
      (proto_caps n).min_length ≤ msg_length ∧ forcedAt (proto_caps n) msg_length) := by
  unfold selectNextStep
  split
  · rename_i hmin
    simp only [hf, Bool.false_eq_true, false_iff]
    rintro ⟨hle, -⟩
    exact absurd hmin (Nat.not_lt.2 hle)
  · rename_i hmin
    have hle : (proto_caps n).min_length ≤ msg_length := Nat.le_of_not_lt hmin
    rw [selectNextThreshStep_forced_self, selectNextRangeStep_forced, hf, Bool.false_or]
    simp [hle]

theorem selectNextStep_self_perf (proto_caps : Nat → ucp_proto_caps_t) (msg_length : Nat)
    (s : ucp_select_next_state_t) (n : Nat) (r : ucp_proto_perf_range_t)
    (hle : (proto_caps n).min_length ≤ msg_length)
    (hc : containingRange (proto_caps n) msg_length = some r) :
    (selectNextStep proto_caps msg_length s n).proto_perf n = r.perf := by
  unfold selectNextStep
  rw [if_neg (Nat.not_lt.2 hle), selectNextThreshStep_perf]
  unfold selectNextRangeStep
  rw [hc]
  exact updPerf_self _ _ _

theorem selectNextRangeStep_max (proto_caps : Nat → ucp_proto_caps_t) (msg_length : Nat)
    (s : ucp_select_next_state_t) (n : Nat) (hle : s.max_length ≤ SIZE_MAX) :
    (selectNextRangeStep proto_caps msg_length s n).max_length =
      min s.max_length
        (match containingRange (proto_caps n) msg_length with
          | some r => r.max_length
          | none => SIZE_MAX) := by
  unfold selectNextRangeStep
  split
  · dsimp only
  · omega

theorem selectNextThreshStep_max (proto_caps : Nat → ucp_proto_caps_t) (msg_length : Nat)
    (s : ucp_select_next_state_t) (n : Nat) (hle : s.max_length ≤ SIZE_MAX) :
    (selectNextThreshStep proto_caps msg_length s n).max_length =
      min s.max_length
        (match (proto_caps n).cfg_thresh with
          | .val t => if msg_length < t then t - 1 else SIZE_MAX
          | _ => SIZE_MAX) := by
  unfold selectNextThreshStep
  split
  · rename_i ht
    simp only [ht]
    omega
  · rename_i ht
    simp only [ht]
    omega
  · rename_i t ht
    simp only [ht]
    split <;> split <;> simp only [] <;> omega

theorem selectNextStep_max (proto_caps : Nat → ucp_proto_caps_t) (msg_length : Nat)
    (s : ucp_select_next_state_t) (n : Nat) (hle : s.max_length ≤ SIZE_MAX) :
    (selectNextStep proto_caps msg_length s n).max_length =
      min s.max_length (stepContribution (proto_caps n) msg_length) := by
  unfold selectNextStep stepContribution
  split
  · omega
  · have hle2 : (selectNextRangeStep proto_caps msg_length s n).max_length ≤ SIZE_MAX := by
      rw [selectNextRangeStep_max _ _ _ _ hle]; omega
    rw [selectNextThreshStep_max _ _ _ _ hle2, selectNextRangeStep_max _ _ _ _ hle]
    omega

theorem selectNextCalcAux_spec (proto_mask : Nat) (proto_caps : Nat → ucp_proto_caps_t)
    (msg_length : Nat) (n : Nat) :
    (∀ p, n ≤ p →
      (selectNextCalcAux proto_mask proto_caps msg_length n).valid_mask.testBit p = false ∧
      (selectNextCalcAux proto_mask proto_caps msg_length n).forced_mask.testBit p = false ∧
      (selectNextCalcAux proto_mask proto_caps msg_length n).proto_perf p = ⟨0, 0⟩) ∧
    (∀ p, p < n →
      ((selectNextCalcAux proto_mask proto_caps msg_length n).valid_mask.testBit p = true ↔
        proto_mask.testBit p = true ∧ validAt (proto_caps p) msg_length ∧
          ¬ forciblyDisabledAt (proto_caps p) msg_length) ∧
      ((selectNextCalcAux proto_mask proto_caps msg_length n).forced_mask.testBit p = true ↔
        proto_mask.testBit p = true ∧ (proto_caps p).min_length ≤ msg_length ∧
          forcedAt (proto_caps p) msg_length) ∧
      (∀ r, proto_mask.testBit p = true → (proto_caps p).min_length ≤ msg_length →
        containingRange (proto_caps p) msg_length = some r →
        (selectNextCalcAux proto_mask proto_caps msg_length n).proto_perf p = r.perf)) := by
  induction n with
  | zero =>
    refine ⟨fun p _ => ⟨Nat.zero_testBit p, Nat.zero_testBit p, rfl⟩, fun p hp => absurd hp (by omega)⟩
  | succ n ih =>
    rw [selectNextCalcAux_succ]
    by_cases hm : proto_mask.testBit n
    · rw [if_pos hm]
      constructor
      · intro p hp
        have hne : p ≠ n := by omega
        obtain ⟨u1, u2, u3⟩ := selectNextStep_untouched proto_caps msg_length
          (selectNextCalcAux proto_mask proto_caps msg_length n) n p hne
        obtain ⟨a1, a2, a3⟩ := (ih.1 p (by omega))
        exact ⟨u1.trans a1, u2.trans a2, u3.trans a3⟩
      · intro p hp
        rcases Nat.lt_or_ge p n with hlt | hge
        · have hne : p ≠ n := by omega
          obtain ⟨u1, u2, u3⟩ := selectNextStep_untouched proto_caps msg_length
            (selectNextCalcAux proto_mask proto_caps msg_length n) n p hne
          obtain ⟨b1, b2, b3⟩ := ih.2 p hlt
          refine ⟨u1 ▸ b1, u2 ▸ b2, fun r h1 h2 h3 => u3.trans (b3 r h1 h2 h3)⟩
        · have hpn : p = n := by omega
          subst hpn
          obtain ⟨a1, a2, a3⟩ := ih.1 p (Nat.le_refl p)
          refine ⟨?_, ?_, ?_⟩
          · rw [selectNextStep_self_valid proto_caps msg_length _ p a1]
            constructor
            · exact fun h => ⟨hm, h⟩
            · exact fun h => h.2
          · rw [selectNextStep_self_forced proto_caps msg_length _ p a2]
            constructor
            · exact fun h => ⟨hm, h⟩
            · exact fun h => h.2
          · intro r _ h2 h3
            exact selectNextStep_self_perf proto_caps msg_length _ p r h2 h3
    · rw [if_neg hm]
      constructor
      · intro p hp
        exact ih.1 p (by omega)
      · intro p hp
        rcases Nat.lt_or_ge p n with hlt | hge
        · exact ih.2 p hlt
        · have hpn : p = n := by omega
          subst hpn
          obtain ⟨a1, a2, a3⟩ := ih.1 p (Nat.le_refl p)
          have hm2 : proto_mask.testBit p = false := by
            simp only [Bool.not_eq_true] at hm; exact hm
          refine ⟨?_, ?_, ?_⟩
          · rw [a1]
            simp [hm2]
          · rw [a2]
            simp [hm2]
          · intro r h1 _ _
            rw [hm2] at h1
            exact absurd h1 (by simp)

theorem testBit_lt_width {proto_mask p : Nat} (hmask : proto_mask < 2 ^ UCP_PROTO_MAX_COUNT)
    (h : proto_mask.testBit p = true) : p < UCP_PROTO_MAX_COUNT := by
  by_contra hc
  have := Nat.testBit_implies_ge h
  have : 2 ^ UCP_PROTO_MAX_COUNT ≤ proto_mask :=
    le_trans (Nat.pow_le_pow_right (by norm_num) (Nat.le_of_not_lt hc)) this
  omega

theorem selectNextCalc_valid_iff (proto_mask : Nat) (proto_caps : Nat → ucp_proto_caps_t)
    (msg_length : Nat) (hmask : proto_mask < 2 ^ UCP_PROTO_MAX_COUNT) (p : Nat) :
    ((selectNextCalc proto_mask proto_caps msg_length).valid_mask.testBit p = true ↔
      proto_mask.testBit p = true ∧ validAt (proto_caps p) msg_length ∧
        ¬ forciblyDisabledAt (proto_caps p) msg_length) := by
  rw [selectNextCalc_eq_aux]
  rcases Nat.lt_or_ge p UCP_PROTO_MAX_COUNT with hp | hp
  · exact ((selectNextCalcAux_spec proto_mask proto_caps msg_length UCP_PROTO_MAX_COUNT).2 p hp).1
  · rw [((selectNextCalcAux_spec proto_mask proto_caps msg_length UCP_PROTO_MAX_COUNT).1 p hp).1]
    constructor
    · intro h; exact absurd h (by simp)
    · rintro ⟨h1, -, -⟩
      exact absurd (testBit_lt_width hmask h1) (by omega)

theorem selectNextCalc_forced_iff (proto_mask : Nat) (proto_caps : Nat → ucp_proto_caps_t)
    (msg_length : Nat) (hmask : proto_mask < 2 ^ UCP_PROTO_MAX_COUNT) (p : Nat) :
    ((selectNextCalc proto_mask proto_caps msg_length).forced_mask.testBit p = true ↔
      proto_mask.testBit p = true ∧ (proto_caps p).min_length ≤ msg_length ∧
        forcedAt (proto_caps p) msg_length) := by
  rw [selectNextCalc_eq_aux]
  rcases Nat.lt_or_ge p UCP_PROTO_MAX_COUNT with hp | hp
  · exact ((selectNextCalcAux_spec proto_mask proto_caps msg_length UCP_PROTO_MAX_COUNT).2 p hp).2.1
  · rw [((selectNextCalcAux_spec proto_mask proto_caps msg_length UCP_PROTO_MAX_COUNT).1 p hp).2.1]
    constructor
    · intro h; exact absurd h (by simp)
    · rintro ⟨h1, -, -⟩
      exact absurd (testBit_lt_width hmask h1) (by omega)

theorem selectNextCalc_perf (proto_mask : Nat) (proto_caps : Nat → ucp_proto_caps_t)
    (msg_length : Nat) (hmask : proto_mask < 2 ^ UCP_PROTO_MAX_COUNT) (p : Nat)
    (r : ucp_proto_perf_range_t) (h1 : proto_mask.testBit p = true)
    (h2 : (proto_caps p).min_length ≤ msg_length)
    (h3 : containingRange (proto_caps p) msg_length = some r) :
    (selectNextCalc proto_mask proto_caps msg_length).proto_perf p = r.perf := by
  rw [selectNextCalc_eq_aux]
  exact ((selectNextCalcAux_spec proto_mask proto_caps msg_length UCP_PROTO_MAX_COUNT).2 p
    (testBit_lt_width hmask h1)).2.2 r h1 h2 h3

theorem selectNextCalcAux_max_le (proto_mask : Nat) (proto_caps : Nat → ucp_proto_caps_t)
    (msg_length : Nat) (n : Nat) :
    (selectNextCalcAux proto_mask proto_caps msg_length n).max_length ≤ SIZE_MAX := by
  induction n with
  | zero => exact Nat.le_refl _
  | succ n ih =>
    rw [selectNextCalcAux_succ]
    by_cases hm : proto_mask.testBit n
    · rw [if_pos hm, selectNextStep_max _ _ _ _ ih]
      omega
    · rw [if_neg hm]
      exact ih

theorem stepContribution_ge (caps : ucp_proto_caps_t) (msg_length : Nat)
    (hmsg : msg_length ≤ SIZE_MAX) : msg_length ≤ stepContribution caps msg_length := by
  unfold stepContribution
  split
  · exact hmsg
  · refine le_min ?_ ?_
    · split
      · rename_i r hr
        have := List.find?_some hr
        simpa using this
      · exact hmsg
    · split
      · rename_i t ht
        split <;> omega
      · exact hmsg

theorem selectNextCalcAux_max_ge (proto_mask : Nat) (proto_caps : Nat → ucp_proto_caps_t)
    (msg_length : Nat) (hmsg : msg_length ≤ SIZE_MAX) (n : Nat) :
    msg_length ≤ (selectNextCalcAux proto_mask proto_caps msg_length n).max_length := by
  induction n with
  | zero => exact hmsg
  | succ n ih =>
    rw [selectNextCalcAux_succ]
    by_cases hm : proto_mask.testBit n
    · rw [if_pos hm, selectNextStep_max _ _ _ _
        (selectNextCalcAux_max_le proto_mask proto_caps msg_length n)]
      exact le_min ih (stepContribution_ge _ _ hmsg)
    · rw [if_neg hm]
      exact ih

theorem selectNextCalc_max_ge (proto_mask : Nat) (proto_caps : Nat → ucp_proto_caps_t)
    (msg_length : Nat) (hmsg : msg_length ≤ SIZE_MAX) :
    msg_length ≤ (selectNextCalc proto_mask proto_caps msg_length).max_length := by
  rw [selectNextCalc_eq_aux]
  exact selectNextCalcAux_max_ge _ _ _ hmsg _

theorem selectNextCalc_max_le (proto_mask : Nat) (proto_caps : Nat → ucp_proto_caps_t)
    (msg_length : Nat) :
    (selectNextCalc proto_mask proto_caps msg_length).max_length ≤ SIZE_MAX := by
  rw [selectNextCalc_eq_aux]
  exact selectNextCalcAux_max_le _ _ _ _

theorem claimMaxLengthAmendedAux_succ (proto_mask : Nat) (proto_caps : Nat → ucp_proto_caps_t)
    (msg_length n : Nat) :
    claimMaxLengthAmendedAux proto_mask proto_caps msg_length (n + 1) =
      (if proto_mask.testBit n then
        (if (proto_caps n).min_length ≤ msg_length then
          min (claimMaxLengthAmendedAux proto_mask proto_caps msg_length n)
            (min
              (match containingRange (proto_caps n) msg_length with
                | some r => r.max_length
                | none => SIZE_MAX)
              (match (proto_caps n).cfg_thresh with
                | .val t => if msg_length < t then t - 1 else SIZE_MAX
                | _ => SIZE_MAX))
        else claimMaxLengthAmendedAux proto_mask proto_caps msg_length n)
      else claimMaxLengthAmendedAux proto_mask proto_caps msg_length n) := by
  unfold claimMaxLengthAmendedAux
  rw [List.range_succ, List.foldl_append, List.foldl_cons, List.foldl_nil]

theorem claimMaxLengthAmendedAux_le (proto_mask : Nat) (proto_caps : Nat → ucp_proto_caps_t)
    (msg_length n : Nat) :
    claimMaxLengthAmendedAux proto_mask proto_caps msg_length n ≤ SIZE_MAX := by
  induction n with
  | zero => exact Nat.le_refl _
  | succ n ih =>
    rw [claimMaxLengthAmendedAux_succ]
    split
    · split
      · omega
      · exact ih
    · exact ih

theorem selectNextCalcAux_max_eq (proto_mask : Nat) (proto_caps : Nat → ucp_proto_caps_t)
    (msg_length : Nat) (n : Nat) :
    (selectNextCalcAux proto_mask proto_caps msg_length n).max_length =
      claimMaxLengthAmendedAux proto_mask proto_caps msg_length n := by
  induction n with
  | zero => rfl
  | succ n ih =>
    rw [selectNextCalcAux_succ, claimMaxLengthAmendedAux_succ]
    by_cases hm : proto_mask.testBit n
    · rw [if_pos hm, if_pos hm,
        selectNextStep_max _ _ _ _ (selectNextCalcAux_max_le proto_mask proto_caps msg_length n),
        ih]
      unfold stepContribution
      by_cases hmin : (proto_caps n).min_length ≤ msg_length
      · rw [if_neg (Nat.not_lt.2 hmin), if_pos hmin]
      · rw [if_pos (Nat.lt_of_not_le hmin), if_neg hmin]
        have := claimMaxLengthAmendedAux_le proto_mask proto_caps msg_length n
        omega
    · rw [if_neg hm, if_neg hm, ih]

theorem selectNextCalc_max_eq_amended (proto_mask : Nat) (proto_caps : Nat → ucp_proto_caps_t)
    (msg_length : Nat) :
    (selectNextCalc proto_mask proto_caps msg_length).max_length =
      claimMaxLengthAmended proto_mask proto_caps msg_length := by
  rw [selectNextCalc_eq_aux, selectNextCalcAux_max_eq]
  rfl

/-! ## Best-protocol scan characterization -/

theorem findBestAtAux_succ (proto_perf : Nat → ucs_linear_func_t) (proto_mask : Nat) (x : ℚ)
    (n : Nat) :
    findBestAtAux proto_perf proto_mask x (n + 1) =
      (if proto_mask.testBit n then
        match findBestAtAux proto_perf proto_mask x n with
        | none => some (n, ucs_linear_func_apply (proto_perf n) x)
        | some b =>
          if ucs_linear_func_apply (proto_perf n) x < b.2 then
            some (n, ucs_linear_func_apply (proto_perf n) x)
          else some b
      else findBestAtAux proto_perf proto_mask x n) := by
  unfold findBestAtAux
  rw [List.range_succ, List.foldl_append, List.foldl_cons, List.foldl_nil]

theorem findBestAt_eq_aux (proto_perf : Nat → ucs_linear_func_t) (proto_mask : Nat) (x : ℚ) :
    findBestAt proto_perf proto_mask x = findBestAtAux proto_perf proto_mask x UCP_PROTO_MAX_COUNT :=
  rfl

theorem findBestAtAux_spec (proto_perf : Nat → ucs_linear_func_t) (proto_mask : Nat) (x : ℚ)
    (n : Nat) :
    (findBestAtAux proto_perf proto_mask x n = none ↔
      ∀ p, p < n → proto_mask.testBit p = false) ∧
    (∀ b, findBestAtAux proto_perf proto_mask x n = some b →
      b.1 < n ∧ proto_mask.testBit b.1 = true ∧
      b.2 = ucs_linear_func_apply (proto_perf b.1) x ∧
      (∀ q, q < n → proto_mask.testBit q = true →
        b.2 ≤ ucs_linear_func_apply (proto_perf q) x) ∧
      (∀ q, q < n → proto_mask.testBit q = true → q < b.1 →
        b.2 < ucs_linear_func_apply (proto_perf q) x)) := by
  induction n with
  | zero =>
    constructor
    · constructor
      · intro _ p hp; exact absurd hp (by omega)
      · intro _; rfl
    · intro b hb; exact absurd hb (by simp [findBestAtAux])
  | succ n ih =>
    rw [findBestAtAux_succ]
    by_cases hm : proto_mask.testBit n
    · rw [if_pos hm]
      rcases ha : findBestAtAux proto_perf proto_mask x n with _ | b0
      · simp only [ha]
        constructor
        · constructor
          · intro h; exact absurd h (by simp)
          · intro h
            exact absurd (h n (by omega)) (by simp [hm])
        · intro b hb
          have hall := ih.1.1 ha
          cases hb
          refine ⟨by omega, hm, rfl, ?_, ?_⟩
          · intro q hq hbit
            rcases Nat.lt_or_ge q n with h1 | h1
            · exact absurd hbit (by simp [hall q h1])
            · have : q = n := by omega
              subst this; exact le_refl _
          · intro q hq hbit hlt
            rcases Nat.lt_or_ge q n with h1 | h1
            · exact absurd hbit (by simp [hall q h1])
            · omega
      · obtain ⟨hb1, hb2, hb3, hb4, hb5⟩ := ih.2 b0 ha
        simp only [ha]
        split
        · rename_i hcost
          constructor
          · constructor
            · intro h; exact absurd h (by simp)
            · intro h; exact absurd (h n (by omega)) (by simp [hm])
          · intro b hb
            cases hb
            refine ⟨by omega, hm, rfl, ?_, ?_⟩
            · intro q hq hbit
              rcases Nat.lt_or_ge q n with h1 | h1
              · exact le_of_lt (lt_of_lt_of_le hcost (hb4 q h1 hbit))
              · have : q = n := by omega
                subst this; exact le_refl _
            · intro q hq hbit hlt
              have h1 : q < n := by omega
              exact lt_of_lt_of_le hcost (hb4 q h1 hbit)
        · rename_i hcost
          constructor
          · constructor
            · intro h; exact absurd h (by simp)
            · intro h; exact absurd (h b0.1 (by omega)) (by simp [hb2])
          · intro b hb
            cases hb
            refine ⟨by omega, hb2, hb3, ?_, ?_⟩
            · intro q hq hbit
              rcases Nat.lt_or_ge q n with h1 | h1
              · exact hb4 q h1 hbit
              · have : q = n := by omega
                subst this
                rw [hb3] at hcost ⊢
                exact le_of_not_lt hcost
            · intro q hq hbit hlt
              have h1 : q < n := by omega
              exact hb5 q h1 hbit hlt
    · rw [if_neg hm]
      constructor
      · constructor
        · intro h p hp
          rcases Nat.lt_or_ge p n with h1 | h1
          · exact ih.1.1 h p h1
          · have : p = n := by omega
            subst this
            simp only [Bool.not_eq_true] at hm; exact hm
        · intro h
          exact ih.1.2 (fun p hp => h p (by omega))
      · intro b hb
        obtain ⟨hb1, hb2, hb3, hb4, hb5⟩ := ih.2 b hb
        refine ⟨by omega, hb2, hb3, ?_, ?_⟩
        · intro q hq hbit
          rcases Nat.lt_or_ge q n with h1 | h1
          · exact hb4 q h1 hbit
          · have : q = n := by omega
            subst this; exact absurd hbit (by simp [hm])
        · intro q hq hbit hlt
          rcases Nat.lt_or_ge q n with h1 | h1
          · exact hb5 q h1 hbit hlt
          · have : q = n := by omega
            subst this; exact absurd hbit (by simp [hm])

theorem findBestAt_isSome (proto_perf : Nat → ucs_linear_func_t) (proto_mask : Nat) (x : ℚ)
    (hmask : proto_mask < 2 ^ UCP_PROTO_MAX_COUNT) (hne : proto_mask ≠ 0) :
    ∃ b, findBestAt proto_perf proto_mask x = some b := by
  rcases hb : findBestAt proto_perf proto_mask x with _ | b
  · rw [findBestAt_eq_aux] at hb
    have hall := (findBestAtAux_spec proto_perf proto_mask x UCP_PROTO_MAX_COUNT).1.1 hb
    refine absurd (Nat.eq_of_testBit_eq fun i => ?_) hne
    rw [Nat.zero_testBit]
    rcases Nat.lt_or_ge i UCP_PROTO_MAX_COUNT with h1 | h1
    · exact hall i h1
    · exact Nat.testBit_lt_two_pow
        (lt_of_lt_of_le hmask (Nat.pow_le_pow_right (by norm_num) h1))
  · exact ⟨b, rfl⟩

theorem findBestAt_spec (proto_perf : Nat → ucs_linear_func_t) (proto_mask : Nat) (x : ℚ)
    (b : Nat × ℚ) (hb : findBestAt proto_perf proto_mask x = some b) :
    b.1 < UCP_PROTO_MAX_COUNT ∧ proto_mask.testBit b.1 = true ∧
    b.2 = ucs_linear_func_apply (proto_perf b.1) x ∧
    (∀ q, q < UCP_PROTO_MAX_COUNT → proto_mask.testBit q = true →
      b.2 ≤ ucs_linear_func_apply (proto_perf q) x) ∧
    (∀ q, q < UCP_PROTO_MAX_COUNT → proto_mask.testBit q = true → q < b.1 →
      b.2 < ucs_linear_func_apply (proto_perf q) x) := by
  rw [findBestAt_eq_aux] at hb
  exact (findBestAtAux_spec proto_perf proto_mask x UCP_PROTO_MAX_COUNT).2 b hb

/-! ## Midpoint scan characterization -/

theorem sizeOfDouble_ge (start : Nat) (x : ℚ) (h : (start : ℚ) < x) :
    start ≤ sizeOfDouble x := by
  unfold sizeOfDouble
  have h1 : (start : ℤ) ≤ ⌊x⌋ := by
    rw [Int.le_floor]
    push_cast
    exact le_of_lt h
  have h2 : ((start : ℤ)).toNat ≤ (⌊x⌋).toNat := Int.toNat_le_toNat h1
  simpa using h2

theorem findMidpointAux_succ (proto_perf : Nat → ucs_linear_func_t) (proto_mask best_id : Nat)
    (start endv n : Nat) :
    findMidpointAux proto_perf proto_mask best_id start endv (n + 1) =
      (if proto_mask.testBit n then
        match ucs_linear_func_intersect (proto_perf n) (proto_perf best_id) with
        | some x_intersect =>
          if (start : ℚ) < x_intersect then
            if x_intersect < (SIZE_MAX : ℚ) then
              min (sizeOfDouble x_intersect)
                (findMidpointAux proto_perf proto_mask best_id start endv n)
            else findMidpointAux proto_perf proto_mask best_id start endv n
          else findMidpointAux proto_perf proto_mask best_id start endv n
        | none => findMidpointAux proto_perf proto_mask best_id start endv n
      else findMidpointAux proto_perf proto_mask best_id start endv n) := by
  unfold findMidpointAux
  rw [List.range_succ, List.foldl_append, List.foldl_cons, List.foldl_nil]

theorem findMidpoint_eq_aux (proto_perf : Nat → ucs_linear_func_t) (proto_mask best_id : Nat)
    (start endv : Nat) :
    findMidpoint proto_perf proto_mask best_id start endv =
      findMidpointAux proto_perf proto_mask best_id start endv UCP_PROTO_MAX_COUNT :=
  rfl

theorem findMidpointAux_le (proto_perf : Nat → ucs_linear_func_t) (proto_mask best_id : Nat)
    (start endv n : Nat) :
    findMidpointAux proto_perf proto_mask best_id start endv n ≤ endv := by
  induction n with
  | zero => exact Nat.le_refl _
  | succ n ih =>
    rw [findMidpointAux_succ]
    split
    · split
      · split
        · split
          · exact le_trans (min_le_right _ _) ih
          · exact ih
        · exact ih
      · exact ih
    · exact ih

theorem findMidpointAux_ge (proto_perf : Nat → ucs_linear_func_t) (proto_mask best_id : Nat)
    (start endv n : Nat) (hse : start ≤ endv) :
    start ≤ findMidpointAux proto_perf proto_mask best_id start endv n := by
  induction n with
  | zero => exact hse
  | succ n ih =>
    rw [findMidpointAux_succ]
    split
    · split
      · rename_i x hx
        split
        · rename_i hgt
          split
          · rename_i hlt
            exact le_min (sizeOfDouble_ge start x hgt) ih
          · exact ih
        · exact ih
      · exact ih
    · exact ih

theorem findMidpointAux_of_empty (proto_perf : Nat → ucs_linear_func_t) (proto_mask best_id : Nat)
    (start endv n : Nat) (h : ∀ p, p < n → proto_mask.testBit p = false) :
    findMidpointAux proto_perf proto_mask best_id start endv n = endv := by
  induction n with
  | zero => rfl
  | succ n ih =>
    rw [findMidpointAux_succ, if_neg (by simp [h n (by omega)]),
      ih (fun p hp => h p (by omega))]

theorem findMidpoint_le (proto_perf : Nat → ucs_linear_func_t) (proto_mask best_id : Nat)
    (start endv : Nat) :
    findMidpoint proto_perf proto_mask best_id start endv ≤ endv := by
  rw [findMidpoint_eq_aux]; exact findMidpointAux_le _ _ _ _ _ _

theorem findMidpoint_ge (proto_perf : Nat → ucs_linear_func_t) (proto_mask best_id : Nat)
    (start endv : Nat) (hse : start ≤ endv) :
    start ≤ findMidpoint proto_perf proto_mask best_id start endv := by
  rw [findMidpoint_eq_aux]; exact findMidpointAux_ge _ _ _ _ _ _ hse

theorem findMidpoint_lt_nonempty (proto_perf : Nat → ucs_linear_func_t)
    (proto_mask best_id : Nat) (start endv : Nat)
    (hmask : proto_mask < 2 ^ UCP_PROTO_MAX_COUNT)
    (h : findMidpoint proto_perf proto_mask best_id start endv < endv) :
    proto_mask ≠ 0 := by
  intro h0
  subst h0
  rw [findMidpoint_eq_aux,
    findMidpointAux_of_empty _ _ _ _ _ _ (fun p _ => Nat.zero_testBit p)] at h
  omega

/-! ## Temporary-list lemmas -/

theorem thresholds_append_shape (lst : List ucp_proto_threshold_tmp_elem_t) (m p : Nat) :
    ∃ t2, ucp_proto_thresholds_append lst m p = ⟨m, p⟩ :: t2 ∧ ∀ e, e ∈ t2 → e ∈ lst := by
  cases lst with
  | nil => exact ⟨[], rfl, by simp⟩
  | cons e rest =>
    simp only [ucp_proto_thresholds_append]
    by_cases hp : e.proto_id = p
    · rw [if_pos hp]
      exact ⟨rest, rfl, fun x hx => List.mem_cons_of_mem e hx⟩
    · rw [if_neg hp]
      exact ⟨e :: rest, rfl, fun x hx => hx⟩

theorem rsorted_head_gt {h : ucp_proto_threshold_tmp_elem_t}
    {t : List ucp_proto_threshold_tmp_elem_t} (hs : RSortedTmp (h :: t)) :
    ∀ e, e ∈ t → e.max_length < h.max_length := by
  haveI : IsTrans ucp_proto_threshold_tmp_elem_t
      (fun a b => b.max_length < a.max_length) := ⟨fun a b c h1 h2 => lt_trans h2 h1⟩
  have hpw := (List.chain'_iff_pairwise (R := fun a b : ucp_proto_threshold_tmp_elem_t =>
    b.max_length < a.max_length)).mp hs
  rw [List.pairwise_cons] at hpw
  exact hpw.1

theorem thresholds_append_sorted (lst : List ucp_proto_threshold_tmp_elem_t) (m p : Nat)
    (hs : RSortedTmp lst) (hlt : ∀ e, e ∈ lst → e.max_length < m) :
    RSortedTmp (ucp_proto_thresholds_append lst m p) := by
  cases lst with
  | nil => exact List.chain'_singleton _
  | cons e rest =>
    simp only [ucp_proto_thresholds_append]
    by_cases hp : e.proto_id = p
    · rw [if_pos hp]
      rw [RSortedTmp, List.chain'_cons']
      refine ⟨?_, (List.chain'_cons'.mp hs).2⟩
      intro b hb
      have hbmem : b ∈ rest := by
        cases hr : rest with
        | nil => rw [hr] at hb; simp at hb
        | cons x xs =>
          rw [hr] at hb
          simp only [List.head?_cons, Option.mem_def, Option.some.injEq] at hb
          rw [← hb]
          exact List.mem_cons_self x xs
      exact hlt b (List.mem_cons_of_mem e hbmem)
    · rw [if_neg hp]
      rw [RSortedTmp, List.chain'_cons]
      exact ⟨hlt e (List.mem_cons_self e rest), hs⟩

theorem thresholds_append_extends (lst : List ucp_proto_threshold_tmp_elem_t) (m p : Nat)
    (hlt : ∀ e, e ∈ lst → e.max_length ≤ m) :
    SweepExtends lst (ucp_proto_thresholds_append lst m p) := by
  cases lst with
  | nil => exact Or.inl ⟨[⟨m, p⟩], rfl⟩
  | cons e rest =>
    simp only [ucp_proto_thresholds_append]
    by_cases hp : e.proto_id = p
    · rw [if_pos hp]
      exact Or.inr ⟨[], e, rest, ⟨m, p⟩, rfl, rfl, hp.symm,
        hlt e (List.mem_cons_self e rest)⟩
    · rw [if_neg hp]
      exact Or.inl ⟨[⟨m, p⟩], rfl⟩

theorem sweepExtends_refl (lst : List ucp_proto_threshold_tmp_elem_t) :
    SweepExtends lst lst :=
  Or.inl ⟨[], rfl⟩

theorem sweepExtends_trans (a b c : List ucp_proto_threshold_tmp_elem_t)
    (hab : SweepExtends a b) (hbc : SweepExtends b c) : SweepExtends a c := by
  rcases hab with ⟨e1, rfl⟩ | ⟨e1, h, t, h2, ha, hb, hp, hm⟩
  · rcases hbc with ⟨e2, rfl⟩ | ⟨e2, hb, tb, hb2, hbeq, hceq, hbp, hbm⟩
    · exact Or.inl ⟨e2 ++ e1, by rw [List.append_assoc]⟩
    · cases e1 with
      | nil =>
        simp only [List.nil_append] at hbeq
        subst hbeq
        exact Or.inr ⟨e2, hb, tb, hb2, rfl, hceq, hbp, hbm⟩
      | cons x e1t =>
        simp only [List.cons_append, List.cons.injEq] at hbeq
        obtain ⟨hx, htb⟩ := hbeq
        refine Or.inl ⟨e2 ++ hb2 :: e1t, ?_⟩
        rw [hceq, ← htb]
        simp
  · subst ha
    rcases hbc with ⟨e2, rfl⟩ | ⟨e2, hbh, tb, hb2, hbeq, hceq, hbp, hbm⟩
    · refine Or.inr ⟨e2 ++ e1, h, t, h2, rfl, ?_, hp, hm⟩
      rw [hb]
      simp
    · rw [hb] at hbeq
      cases e1 with
      | nil =>
        simp only [List.nil_append, List.cons.injEq] at hbeq
        obtain ⟨hx, htb⟩ := hbeq
        refine Or.inr ⟨e2, h, t, hb2, rfl, by rw [hceq, ← htb], ?_, ?_⟩
        · rw [hbp, ← hx, hp]
        · exact le_trans hm (hx ▸ hbm)
      | cons x e1t =>
        simp only [List.cons_append, List.cons.injEq] at hbeq
        obtain ⟨hx, htb⟩ := hbeq
        refine Or.inr ⟨e2 ++ hb2 :: e1t, h, t, h2, rfl, ?_, hp, hm⟩
        rw [hceq, ← htb]
        simp

/-! ## Lower-envelope loop structure -/

theorem testBit_xor_clear {proto_mask b p : Nat}
    (h : (proto_mask ^^^ (1 <<< b)).testBit p = true) (hb : proto_mask.testBit b = true) :
    proto_mask.testBit p = true ∧ p ≠ b := by
  rw [Nat.testBit_xor, testBit_one_shiftLeft] at h
  by_cases hpb : p = b
  · subst hpb
    rw [hb] at h
    simp at h
  · rw [decide_eq_false hpb, Bool.xor_false] at h
    exact ⟨h, hpb⟩

theorem selectBestGo_spec (proto_perf : Nat → ucs_linear_func_t) (endv : Nat) :
    ∀ (fuel proto_mask start : Nat) (lst out : List ucp_proto_threshold_tmp_elem_t),
    selectBestGo proto_perf fuel proto_mask start endv lst = some out →
    RSortedTmp lst → (∀ e, e ∈ lst → e.max_length < start) → start ≤ endv →
    SweepExtends lst out ∧ RSortedTmp out ∧
      (∃ h t, out = h :: t ∧ h.max_length = endv) ∧
      (∀ e, e ∈ out →
        (∃ e2, e2 ∈ lst ∧ e2.proto_id = e.proto_id) ∨ proto_mask.testBit e.proto_id = true) := by
  intro fuel
  induction fuel with
  | zero =>
    intro mask start lst out hrun
    exact absurd hrun (by simp [selectBestGo])
  | succ fuel ih =>
    intro mask start lst out hrun hsort hlt hse
    rw [selectBestGo] at hrun
    rcases hb : findBestAt proto_perf mask ((start : ℚ) + UCP_PROTO_MSGLEN_EPSILON) with _ | b
    · rw [hb] at hrun; exact absurd hrun (by simp)
    · rw [hb] at hrun
      simp only [] at hrun
      obtain ⟨hb1, hb2, hb3, hb4, hb5⟩ := findBestAt_spec proto_perf mask _ b hb
      set mask2 := mask ^^^ (1 <<< b.1) with hmask2
      set mp := findMidpoint proto_perf mask2 b.1 start endv with hmp
      have hmple : mp ≤ endv := findMidpoint_le _ _ _ _ _
      have hmpge : start ≤ mp := findMidpoint_ge _ _ _ _ _ hse
      obtain ⟨t2, heq2, hsub2⟩ := thresholds_append_shape lst mp b.1
      have hltmp : ∀ e, e ∈ lst → e.max_length < mp :=
        fun e he => lt_of_lt_of_le (hlt e he) hmpge
      have sorted2 : RSortedTmp (ucp_proto_thresholds_append lst mp b.1) :=
        thresholds_append_sorted lst mp b.1 hsort hltmp
      have ext12 : SweepExtends lst (ucp_proto_thresholds_append lst mp b.1) :=
        thresholds_append_extends lst mp b.1 (fun e he => le_of_lt (hltmp e he))
      by_cases hcond : mp < endv
      · rw [if_pos hcond] at hrun
        have hlt2 : ∀ e, e ∈ ucp_proto_thresholds_append lst mp b.1 →
            e.max_length < mp + 1 := by
          intro e he
          rw [heq2] at he
          rcases List.mem_cons.mp he with rfl | he2
          · dsimp only
            omega
          · have := hlt e (hsub2 e he2)
            omega
        obtain ⟨ex2, so2, he2, mem2⟩ := ih mask2 (mp + 1)
          (ucp_proto_thresholds_append lst mp b.1) out hrun sorted2 hlt2 (by omega)
        refine ⟨sweepExtends_trans _ _ _ ext12 ex2, so2, he2, ?_⟩
        intro e he
        rcases mem2 e he with ⟨e2, he2m, hp2⟩ | hbit
        · rw [heq2] at he2m
          rcases List.mem_cons.mp he2m with rfl | hmem
          · right
            rw [← hp2]
            exact hb2
          · exact Or.inl ⟨e2, hsub2 e2 hmem, hp2⟩
        · exact Or.inr (testBit_xor_clear hbit hb2).1
      · rw [if_neg hcond] at hrun
        have hout : out = ucp_proto_thresholds_append lst mp b.1 := by
          cases hrun; rfl
        subst hout
        have hmpe : mp = endv := by omega
        refine ⟨ext12, sorted2, ⟨⟨mp, b.1⟩, t2, heq2, hmpe⟩, ?_⟩
        intro e he
        rw [heq2] at he
        rcases List.mem_cons.mp he with rfl | hmem
        · exact Or.inr hb2
        · exact Or.inl ⟨e, hsub2 e hmem, rfl⟩

theorem find_skip_lt (l1 l2 : List ucp_proto_threshold_tmp_elem_t) (start : Nat)
    (h : ∀ e, e ∈ l1 → e.max_length < start) :
    (l1 ++ l2).find? (fun e => decide (start ≤ e.max_length)) =
      l2.find? (fun e => decide (start ≤ e.max_length)) := by
  induction l1 with
  | nil => rfl
  | cons a l1t ih =>
    rw [List.cons_append, List.find?_cons_of_neg, ih (fun e he => h e (List.mem_cons_of_mem a he))]
    simp only [decide_eq_true_eq]
    have := h a (List.mem_cons_self a l1t)
    omega

theorem find_start_stable (start : Nat) (h : ucp_proto_threshold_tmp_elem_t)
    (t out : List ucp_proto_threshold_tmp_elem_t)
    (hext : SweepExtends (h :: t) out)
    (hh : start ≤ h.max_length) (ht : ∀ e, e ∈ t → e.max_length < start) :
    ∃ e, out.reverse.find? (fun e => decide (start ≤ e.max_length)) = some e ∧
      e.proto_id = h.proto_id := by
  rcases hext with ⟨ext, rfl⟩ | ⟨ext, h0, t0, h2, heq, hout, hp, hm⟩
  · rw [List.reverse_append, List.reverse_cons, List.append_assoc,
      find_skip_lt t.reverse _ start (fun e he => ht e (List.mem_reverse.mp he))]
    refine ⟨h, ?_, rfl⟩
    rw [List.singleton_append, List.find?_cons_of_pos]
    simp only [decide_eq_true_eq]
    exact hh
  · obtain ⟨rfl, rfl⟩ : h0 = h ∧ t0 = t := by
      rw [List.cons.injEq] at heq
      exact ⟨heq.1.symm, heq.2.symm⟩
    subst hout
    rw [List.reverse_append, List.reverse_cons, List.append_assoc,
      find_skip_lt t0.reverse _ start (fun e he => ht e (List.mem_reverse.mp he))]
    refine ⟨h2, ?_, hp⟩
    rw [List.singleton_append, List.find?_cons_of_pos]
    simp only [decide_eq_true_eq]
    exact le_trans hh hm

theorem selectBestGo_first (proto_perf : Nat → ucs_linear_func_t)
    (endv fuel proto_mask start : Nat) (lst out : List ucp_proto_threshold_tmp_elem_t)
    (hrun : selectBestGo proto_perf fuel proto_mask start endv lst = some out)
    (hsort : RSortedTmp lst) (hlt : ∀ e, e ∈ lst → e.max_length < start)
    (hse : start ≤ endv) :
    ∃ b, findBestAt proto_perf proto_mask ((start : ℚ) + UCP_PROTO_MSGLEN_EPSILON) = some b ∧
      ∃ e, out.reverse.find? (fun e => decide (start ≤ e.max_length)) = some e ∧
        e.proto_id = b.1 := by
  cases fuel with
  | zero => exact absurd hrun (by simp [selectBestGo])
  | succ fuel =>
    rw [selectBestGo] at hrun
    rcases hb : findBestAt proto_perf proto_mask ((start : ℚ) + UCP_PROTO_MSGLEN_EPSILON)
      with _ | b
    · rw [hb] at hrun; exact absurd hrun (by simp)
    · rw [hb] at hrun
      simp only [] at hrun
      refine ⟨b, rfl, ?_⟩
      set mask2 := proto_mask ^^^ (1 <<< b.1) with hmask2
      set mp := findMidpoint proto_perf mask2 b.1 start endv with hmp
      have hmple : mp ≤ endv := findMidpoint_le _ _ _ _ _
      have hmpge : start ≤ mp := findMidpoint_ge _ _ _ _ _ hse
      obtain ⟨t2, heq2, hsub2⟩ := thresholds_append_shape lst mp b.1
      have hltmp : ∀ e, e ∈ lst → e.max_length < mp :=
        fun e he => lt_of_lt_of_le (hlt e he) hmpge
      have sorted2 : RSortedTmp (ucp_proto_thresholds_append lst mp b.1) :=
        thresholds_append_sorted lst mp b.1 hsort hltmp
      have hts : ∀ e, e ∈ t2 → e.max_length < start :=
        fun e he => hlt e (hsub2 e he)
      by_cases hcond : mp < endv
      · rw [if_pos hcond] at hrun
        have hlt2 : ∀ e, e ∈ ucp_proto_thresholds_append lst mp b.1 →
            e.max_length < mp + 1 := by
          intro e he
          rw [heq2] at he
          rcases List.mem_cons.mp he with rfl | he2
          · dsimp only
            omega
          · have := hlt e (hsub2 e he2)
            omega
        obtain ⟨ex2, -, -, -⟩ := selectBestGo_spec proto_perf endv fuel mask2 (mp + 1)
          (ucp_proto_thresholds_append lst mp b.1) out hrun sorted2 hlt2 (by omega)
        rw [heq2] at ex2
        exact find_start_stable start ⟨mp, b.1⟩ t2 out ex2 hmpge hts
      · rw [if_neg hcond] at hrun
        have hout : out = ucp_proto_thresholds_append lst mp b.1 := by
          cases hrun; rfl
        subst hout
        rw [heq2]
        exact find_start_stable start ⟨mp, b.1⟩ t2 _ (sweepExtends_refl _) hmpge hts

/-! ## Range selection and outer sweep structure -/

theorem competeMask_subset_valid (proto_mask : Nat) (proto_caps : Nat → ucp_proto_caps_t)
    (msg_length p : Nat)
    (h : (competeMask proto_mask proto_caps msg_length).testBit p = true) :
    (selectNextCalc proto_mask proto_caps msg_length).valid_mask.testBit p = true := by
  simp only [competeMask] at h
  split at h
  · simp only [Nat.testBit_and, Bool.and_eq_true] at h
    exact h.2
  · exact h

theorem select_next_ok (proto_mask : Nat) (proto_caps : Nat → ucp_proto_caps_t)
    (lst : List ucp_proto_threshold_tmp_elem_t) (msg_length : Nat)
    (lst2 : List ucp_proto_threshold_tmp_elem_t) (maxLen : Nat)
    (h : ucp_proto_thresholds_select_next proto_mask proto_caps lst msg_length =
      .ok (lst2, maxLen)) :
    (selectNextCalc proto_mask proto_caps msg_length).valid_mask ≠ 0 ∧
    maxLen = (selectNextCalc proto_mask proto_caps msg_length).max_length ∧
    ucp_proto_thresholds_select_best
      (selectNextCalc proto_mask proto_caps msg_length).proto_perf
      (competeMask proto_mask proto_caps msg_length) msg_length maxLen lst = some lst2 := by
  simp only [ucp_proto_thresholds_select_next] at h
  split at h
  · exact absurd h (by simp)
  · rename_i hv
    rcases hsb : ucp_proto_thresholds_select_best
        (selectNextCalc proto_mask proto_caps msg_length).proto_perf
        (competeMask proto_mask proto_caps msg_length) msg_length
        (selectNextCalc proto_mask proto_caps msg_length).max_length lst with _ | l
    · rw [hsb] at h
      exact absurd h (by simp)
    · rw [hsb] at h
      simp only [Except.ok.injEq, Prod.mk.injEq] at h
      obtain ⟨h1, h2⟩ := h
      refine ⟨hv, h2.symm, ?_⟩
      rw [← h2, hsb, h1]

theorem initThreshGo_step (proto_mask : Nat) (proto_caps : Nat → ucp_proto_caps_t)
    (fuel msg_length : Nat) (lst : List ucp_proto_threshold_tmp_elem_t) :
    initThreshGo proto_mask proto_caps (fuel + 1) msg_length lst =
      (match ucp_proto_thresholds_select_next proto_mask proto_caps lst msg_length with
        | .error e => .error e
        | .ok (lst2, max_length) =>
          if max_length < SIZE_MAX then
            initThreshGo proto_mask proto_caps fuel (max_length + 1) lst2
          else .ok lst2) :=
  rfl

theorem initThreshGo_mono (proto_mask : Nat) (proto_caps : Nat → ucp_proto_caps_t) :
    ∀ (f g msg_length : Nat) (lst out : List ucp_proto_threshold_tmp_elem_t),
    initThreshGo proto_mask proto_caps f msg_length lst = .ok out → f ≤ g →
    initThreshGo proto_mask proto_caps g msg_length lst = .ok out := by
  intro f
  induction f with
  | zero =>
    intro g msg lst out h
    exact absurd h (by simp [initThreshGo])
  | succ f ih =>
    intro g msg lst out h hfg
    cases g with
    | zero => omega
    | succ g =>
      rw [initThreshGo_step] at h ⊢
      split at h
      · exact absurd h (by simp)
      · rename_i lst2 maxLen hn
        split at h
        · rename_i hc
          rw [if_pos hc]
          exact ih g (maxLen + 1) lst2 out h (by omega)
        · rename_i hc
          rw [if_neg hc]
          exact h

theorem initThreshGo_spec (proto_mask : Nat) (proto_caps : Nat → ucp_proto_caps_t) :
    ∀ (fuel msg_length : Nat) (lst out : List ucp_proto_threshold_tmp_elem_t),
    initThreshGo proto_mask proto_caps fuel msg_length lst = .ok out →
    RSortedTmp lst → (∀ e, e ∈ lst → e.max_length < msg_length) → msg_length ≤ SIZE_MAX →
    SweepExtends lst out ∧ RSortedTmp out ∧
      (∃ h t, out = h :: t ∧ h.max_length = SIZE_MAX) ∧
      (∀ e, e ∈ out → (∃ e2, e2 ∈ lst ∧ e2.proto_id = e.proto_id) ∨
        ∃ m2, msg_length ≤ m2 ∧
          (competeMask proto_mask proto_caps m2).testBit e.proto_id = true) := by
  intro fuel
  induction fuel with
  | zero =>
    intro msg lst out h
    exact absurd h (by simp [initThreshGo])
  | succ fuel ih =>
    intro msg lst out h hsort hlt hmsg
    rw [initThreshGo_step] at h
    split at h
    · exact absurd h (by simp)
    · rename_i lst2 maxLen hn
      obtain ⟨hv, hmax, hsb⟩ := select_next_ok proto_mask proto_caps lst msg lst2 maxLen hn
      have hse : msg ≤ maxLen := by
        rw [hmax]
        exact selectNextCalc_max_ge proto_mask proto_caps msg hmsg
      have hmaxle : maxLen ≤ SIZE_MAX := by
        rw [hmax]
        exact selectNextCalc_max_le proto_mask proto_caps msg
      rw [ucp_proto_thresholds_select_best] at hsb
      obtain ⟨ext1, sorted1, ⟨h1, t1, heq1, hmax1⟩, mem1⟩ :=
        selectBestGo_spec (selectNextCalc proto_mask proto_caps msg).proto_perf maxLen
          UCP_PROTO_MAX_COUNT (competeMask proto_mask proto_caps msg) msg lst lst2
          hsb hsort hlt hse
      have hlt2 : ∀ e, e ∈ lst2 → e.max_length ≤ maxLen := by
        intro e he
        rw [heq1] at he
        rcases List.mem_cons.mp he with rfl | hm
        · omega
        · have := rsorted_head_gt (heq1 ▸ sorted1) e hm
          omega
      split at h
      · rename_i hc
        obtain ⟨ext2, sorted2, head2, mem2⟩ := ih (maxLen + 1) lst2 out h sorted1
          (fun e he => by have := hlt2 e he; omega) (by omega)
        refine ⟨sweepExtends_trans _ _ _ ext1 ext2, sorted2, head2, ?_⟩
        intro e he
        rcases mem2 e he with ⟨e2, he2, hp2⟩ | ⟨m2, hm2, hbit⟩
        · rcases mem1 e2 he2 with ⟨e3, he3, hp3⟩ | hbit
          · exact Or.inl ⟨e3, he3, hp3.trans hp2⟩
          · exact Or.inr ⟨msg, le_refl _, hp2 ▸ hbit⟩
        · exact Or.inr ⟨m2, by omega, hbit⟩
      · rename_i hc
        have hout : out = lst2 := by cases h; rfl
        subst hout
        have hms : maxLen = SIZE_MAX := by omega
        refine ⟨ext1, sorted1, ⟨h1, t1, heq1, by omega⟩, ?_⟩
        intro e he
        rcases mem1 e he with ⟨e2, he2, hp2⟩ | hbit
        · exact Or.inl ⟨e2, he2, hp2⟩
        · exact Or.inr ⟨msg, le_refl _, hbit⟩

theorem elem_init_thresh_ok (proto_mask : Nat) (proto_caps : Nat → ucp_proto_caps_t)
    (tbl : List ucp_proto_threshold_elem_t)
    (h : ucp_proto_select_elem_init_thresh proto_mask proto_caps = .ok tbl) :
    ∃ out, initThreshGo proto_mask proto_caps (2 ^ 64) 0 [] = .ok out ∧
      tbl = out.reverse.map (fun t => ⟨t.max_length, t.proto_id⟩) := by
  unfold ucp_proto_select_elem_init_thresh at h
  split at h
  · exact absurd h (by simp)
  · rename_i out hout
    simp only [Except.ok.injEq] at h
    exact ⟨out, hout, h.symm⟩

theorem elem_init_ok (protos : List (Option ucp_proto_caps_t))
    (tbl : List ucp_proto_threshold_elem_t)
    (h : ucp_proto_select_elem_init protos = .ok tbl) :
    ∃ proto_mask proto_caps,
      ucp_proto_select_init_protocols protos = .ok (proto_mask, proto_caps) ∧
      ucp_proto_select_elem_init_thresh proto_mask proto_caps = .ok tbl := by
  unfold ucp_proto_select_elem_init at h
  split at h
  · exact absurd h (by simp)
  · rename_i mc hmc
    exact ⟨mc.1, mc.2, hmc, h⟩

theorem foldl_setBits_lt (w : Nat) (P : Nat → Bool) :
    ∀ (l : List Nat) (acc : Nat), (∀ i, i ∈ l → i < w) → acc < 2 ^ w →
    (l.foldl (fun m i => if P i then m ||| (1 <<< i) else m) acc) < 2 ^ w := by
  intro l
  induction l with
  | nil => intro acc _ hacc; exact hacc
  | cons x xs ih =>
    intro acc hmem hacc
    rw [List.foldl_cons]
    refine ih _ (fun i hi => hmem i (List.mem_cons_of_mem x hi)) ?_
    split
    · refine Nat.or_lt_two_pow hacc ?_
      rw [Nat.one_shiftLeft]
      exact Nat.pow_lt_pow_right (by norm_num) (hmem x (List.mem_cons_self x xs))
    · exact hacc

theorem init_protocols_ok (protos : List (Option ucp_proto_caps_t))
    (proto_mask : Nat) (proto_caps : Nat → ucp_proto_caps_t)
    (h : ucp_proto_select_init_protocols protos = .ok (proto_mask, proto_caps)) :
    proto_mask < 2 ^ protos.length ∧ proto_mask ≠ 0 ∧
    proto_caps = fun proto_id => ((protos.get? proto_id).getD none).getD defaultCaps := by
  simp only [ucp_proto_select_init_protocols] at h
  split at h
  · exact absurd h (by simp)
  · rename_i hne
    simp only [Except.ok.injEq, Prod.mk.injEq] at h
    obtain ⟨h1, h2⟩ := h
    refine ⟨?_, ?_, h2.symm⟩
    · rw [← h1]
      refine foldl_setBits_lt protos.length _ (List.range protos.length) 0 ?_ ?_
      · intro i hi
        exact List.mem_range.mp hi
      · exact Nat.two_pow_pos _
    · rw [← h1]
      exact hne

/-- C2: for every SelectElem produced by a successful selection, the emitted
thresholds sequence is non-empty, strictly increasing in `max_msg_length`, and
its final entry has `max_msg_length = SIZE_MAX`. -/
theorem c2_thresholds_sorted_final (protos : List (Option ucp_proto_caps_t))
    (tbl : List ucp_proto_threshold_elem_t)
    (h : ucp_proto_select_elem_init protos = .ok tbl) :
    tbl ≠ [] ∧
    List.Chain' (fun a b => a.max_msg_length < b.max_msg_length) tbl ∧
    (∃ e, tbl.getLast? = some e ∧ e.max_msg_length = SIZE_MAX) := by
  obtain ⟨proto_mask, proto_caps, hip, hit⟩ := elem_init_ok protos tbl h
  obtain ⟨out, hgo, htbl⟩ := elem_init_thresh_ok proto_mask proto_caps tbl hit
  obtain ⟨-, hsorted, ⟨h1, t1, heq1, hmax1⟩, -⟩ :=
    initThreshGo_spec proto_mask proto_caps (2 ^ 64) 0 [] out hgo
      (List.chain'_nil) (by simp) (Nat.zero_le _)
  subst htbl
  refine ⟨?_, ?_, ?_⟩
  · rw [heq1]
    simp
  · rw [List.chain'_map, List.chain'_reverse]
    exact hsorted
  · rw [heq1]
    refine ⟨⟨SIZE_MAX, h1.proto_id⟩, ?_, rfl⟩
    rw [List.reverse_cons, List.map_append]
    simp only [List.map_cons, List.map_nil]
    rw [List.getLast?_concat, hmax1]

/-- C4: a protocol whose user threshold is INF never appears in any threshold
table produced by the threshold builder, for any selection parameters and any
message length. -/
theorem c4_inf_never_selected (protos : List (Option ucp_proto_caps_t))
    (tbl : List ucp_proto_threshold_elem_t) (p : Nat) (caps_p : ucp_proto_caps_t)
    (hlen : protos.length ≤ UCP_PROTO_MAX_COUNT)
    (h : ucp_proto_select_elem_init protos = .ok tbl)
    (hp : protos.get? p = some (some caps_p))
    (hinf : caps_p.cfg_thresh = .inf) :
    ∀ e, e ∈ tbl → e.proto_id ≠ p := by
  obtain ⟨proto_mask, proto_caps, hip, hit⟩ := elem_init_ok protos tbl h
  obtain ⟨hmask, -, hcaps⟩ := init_protocols_ok protos proto_mask proto_caps hip
  obtain ⟨out, hgo, htbl⟩ := elem_init_thresh_ok proto_mask proto_caps tbl hit
  obtain ⟨-, -, -, hmem⟩ :=
    initThreshGo_spec proto_mask proto_caps (2 ^ 64) 0 [] out hgo
      (List.chain'_nil) (by simp) (Nat.zero_le _)
  have hmask64 : proto_mask < 2 ^ UCP_PROTO_MAX_COUNT :=
    lt_of_lt_of_le hmask (Nat.pow_le_pow_right (by norm_num) hlen)
  intro e he hep
  subst htbl
  obtain ⟨t0, hmem0, ht0⟩ := List.mem_map.mp he
  have hout0 : t0 ∈ out := List.mem_reverse.mp hmem0
  rcases hmem t0 hout0 with ⟨e2, he2, -⟩ | ⟨m2, -, hbit⟩
  · exact absurd he2 (List.not_mem_nil e2)
  · have hvalid := competeMask_subset_valid proto_mask proto_caps m2 t0.proto_id hbit
    rw [selectNextCalc_valid_iff proto_mask proto_caps m2 hmask64] at hvalid
    obtain ⟨-, -, hnd⟩ := hvalid
    apply hnd
    refine Or.inl ?_
    have htp : t0.proto_id = p := by rw [← ht0] at hep; exact hep
    have hpc : proto_caps t0.proto_id = caps_p := by
      rw [htp, hcaps]
      show ((protos.get? p).getD none).getD defaultCaps = caps_p
      rw [hp]
      rfl
    rw [hpc, hinf]

/-! ## Threshold lookup -/

theorem search_slow_eq_find (tbl : List ucp_proto_threshold_elem_t) (msg_length : Nat) :
    ucp_proto_thresholds_search_slow tbl msg_length =
      tbl.find? (fun e => decide (msg_length ≤ e.max_msg_length)) := by
  induction tbl with
  | nil => rfl
  | cons e rest ih =>
    rw [ucp_proto_thresholds_search_slow]
    by_cases hc : msg_length > e.max_msg_length
    · rw [if_pos hc, ih, List.find?_cons_of_neg]
      simp only [decide_eq_true_eq]
      omega
    · rw [if_neg hc, List.find?_cons_of_pos]
      simp only [decide_eq_true_eq]
      omega

theorem search_slow_covering (tbl : List ucp_proto_threshold_elem_t) (msg_length : Nat)
    (h1 : tbl ≠ [])
    (h2 : ∃ e, tbl.getLast? = some e ∧ e.max_msg_length = SIZE_MAX)
    (hL : msg_length ≤ SIZE_MAX) :
    ∃ i e, tbl.get? i = some e ∧
      ucp_proto_thresholds_search_slow tbl msg_length = some e ∧
      msg_length ≤ e.max_msg_length ∧
      ∀ j e2, j < i → tbl.get? j = some e2 → e2.max_msg_length < msg_length := by
  induction tbl with
  | nil => exact absurd rfl h1
  | cons e rest ih =>
    rw [ucp_proto_thresholds_search_slow]
    by_cases hc : msg_length > e.max_msg_length
    · rw [if_pos hc]
      have hrest : rest ≠ [] := by
        intro hr
        subst hr
        obtain ⟨e2, he2, hm2⟩ := h2
        simp only [List.getLast?_singleton, Option.some.injEq] at he2
        subst he2
        omega
      have h2r : ∃ e2, rest.getLast? = some e2 ∧ e2.max_msg_length = SIZE_MAX := by
        obtain ⟨e2, he2, hm2⟩ := h2
        refine ⟨e2, ?_, hm2⟩
        cases rest with
        | nil => exact absurd rfl hrest
        | cons b l =>
          rw [List.getLast?_cons_cons] at he2
          exact he2
      obtain ⟨i, e2, hget, hsearch, hle, hlt⟩ := ih hrest h2r
      refine ⟨i + 1, e2, ?_, hsearch, hle, ?_⟩
      · simpa using hget
      · intro j e3 hj hget3
        cases j with
        | zero =>
          simp only [List.get?_cons_zero, Option.some.injEq] at hget3
          subst hget3
          omega
        | succ j =>
          simp only [List.get?_cons_succ] at hget3
          exact hlt j e3 (by omega) hget3
    · rw [if_neg hc]
      exact ⟨0, e, rfl, rfl, by omega, fun j e2 hj => absurd hj (by omega)⟩

/-- C6: on a thresholds array whose final entry is `SIZE_MAX`, the linear scan
terminates with the entry at the smallest index whose `max_msg_length` admits
the message length, never reading past the final entry. -/
theorem c6_search_slow_correct (tbl : List ucp_proto_threshold_elem_t) (msg_length : Nat)
    (h1 : tbl ≠ [])
    (h2 : ∃ e, tbl.getLast? = some e ∧ e.max_msg_length = SIZE_MAX)
    (hL : msg_length ≤ SIZE_MAX) :
    ∃ i e, tbl.get? i = some e ∧
      ucp_proto_thresholds_search_slow tbl msg_length = some e ∧
      msg_length ≤ e.max_msg_length ∧
      ∀ j e2, j < i → tbl.get? j = some e2 → e2.max_msg_length < msg_length :=
  search_slow_covering tbl msg_length h1 h2 hL

/-! ## Termination of the lower-envelope loop -/

theorem selectBestGo_mono (proto_perf : Nat → ucs_linear_func_t) (endv : Nat) :
    ∀ (f g proto_mask start : Nat) (lst out : List ucp_proto_threshold_tmp_elem_t),
    selectBestGo proto_perf f proto_mask start endv lst = some out → f ≤ g →
    selectBestGo proto_perf g proto_mask start endv lst = some out := by
  intro f
  induction f with
  | zero =>
    intro g mask start lst out h
    exact absurd h (by simp [selectBestGo])
  | succ f ih =>
    intro g mask start lst out h hfg
    cases g with
    | zero => omega
    | succ g =>
      rw [selectBestGo] at h ⊢
      split at h
      · exact absurd h (by simp)
      · rename_i best hb
        dsimp only at h ⊢
        split at h
        · rename_i hc
          rw [if_pos hc]
          exact ih g _ _ _ out h (by omega)
        · rename_i hc
          rw [if_neg hc]
          exact h

theorem maskCard_le (proto_mask : Nat) : maskCard proto_mask ≤ UCP_PROTO_MAX_COUNT := by
  unfold maskCard
  calc ((List.range UCP_PROTO_MAX_COUNT).filter proto_mask.testBit).length
      ≤ (List.range UCP_PROTO_MAX_COUNT).length := List.length_filter_le _ _
    _ = UCP_PROTO_MAX_COUNT := List.length_range _

theorem maskCard_pos (proto_mask : Nat) (hne : proto_mask ≠ 0)
    (hmask : proto_mask < 2 ^ UCP_PROTO_MAX_COUNT) : 1 ≤ maskCard proto_mask := by
  have hex : ∃ b, proto_mask.testBit b = true := by
    by_contra hc
    push_neg at hc
    refine hne (Nat.eq_of_testBit_eq fun i => ?_)
    rw [Nat.zero_testBit]
    exact Bool.eq_false_iff.mpr (fun h => hc i h)
  obtain ⟨b, hb⟩ := hex
  have hb64 : b < UCP_PROTO_MAX_COUNT := testBit_lt_width hmask hb
  have hmem : b ∈ (List.range UCP_PROTO_MAX_COUNT).filter proto_mask.testBit :=
    List.mem_filter.mpr ⟨List.mem_range.mpr hb64, hb⟩
  unfold maskCard
  exact List.length_pos_of_mem hmem

theorem filter_clear_length (P : Nat → Bool) (b : Nat) :
    ∀ (l : List Nat), l.Nodup → b ∈ l → P b = true →
    (l.filter (fun j => P j && !(decide (j = b)))).length = (l.filter P).length - 1 := by
  intro l
  induction l with
  | nil => intro _ hb; exact absurd hb (List.not_mem_nil b)
  | cons a l ih =>
    intro hnd hb hpb
    rcases List.mem_cons.mp hb with rfl | hbl
    · have hnotin : b ∉ l := (List.nodup_cons.mp hnd).1
      have hcong : l.filter (fun j => P j && !(decide (j = b))) = l.filter P := by
        refine List.filter_congr ?_
        intro j hj
        have hne : j ≠ b := fun hc => hnotin (hc ▸ hj)
        simp [hne]
      simp [List.filter_cons, hpb, hcong]
    · have hnd2 := (List.nodup_cons.mp hnd).2
      by_cases hpa : P a = true
      · have hane : a ≠ b := by
          intro hc
          exact (List.nodup_cons.mp hnd).1 (hc ▸ hbl)
        have hlen : 1 ≤ (l.filter P).length := by
          have : b ∈ l.filter P := List.mem_filter.mpr ⟨hbl, hpb⟩
          exact List.length_pos_of_mem this
        have hkeep : (P a && !(decide (a = b))) = true := by simp [hpa, hane]
        rw [List.filter_cons, List.filter_cons, if_pos hkeep, if_pos hpa]
        simp only [List.length_cons]
        rw [ih hnd2 hbl hpb]
        omega
      · have hpa2 : P a = false := Bool.eq_false_iff.mpr hpa
        have hskip2 : (P a && !(decide (a = b))) = false := by simp [hpa2]
        rw [List.filter_cons, List.filter_cons, if_neg (by simp [hskip2]),
          if_neg (by simp [hpa2])]
        exact ih hnd2 hbl hpb

theorem maskCard_clear (proto_mask b : Nat) (hb : proto_mask.testBit b = true)
    (hb64 : b < UCP_PROTO_MAX_COUNT) :
    maskCard (proto_mask ^^^ (1 <<< b)) = maskCard proto_mask - 1 := by
  unfold maskCard
  have hpt : ∀ j, (proto_mask ^^^ (1 <<< b)).testBit j =
      (proto_mask.testBit j && !(decide (j = b))) := by
    intro j
    rw [Nat.testBit_xor, testBit_one_shiftLeft]
    rcases eq_or_ne j b with rfl | hne
    · simp [hb]
    · simp [hne]
  rw [List.filter_congr (fun j _ => hpt j)]
  exact filter_clear_length proto_mask.testBit b (List.range UCP_PROTO_MAX_COUNT)
    (List.nodup_range _) (List.mem_range.mpr hb64) hb

theorem selectBestGo_card (proto_perf : Nat → ucs_linear_func_t) (endv : Nat) :
    ∀ (n proto_mask start : Nat) (lst : List ucp_proto_threshold_tmp_elem_t),
    maskCard proto_mask = n → proto_mask ≠ 0 → proto_mask < 2 ^ UCP_PROTO_MAX_COUNT →
    ∃ out, selectBestGo proto_perf n proto_mask start endv lst = some out := by
  intro n
  induction n using Nat.strong_induction_on with
  | _ n ih =>
    intro mask start lst hcard hne hmask
    have hn1 : 1 ≤ n := hcard ▸ maskCard_pos mask hne hmask
    obtain ⟨m, rfl⟩ : ∃ m, n = m + 1 := ⟨n - 1, by omega⟩
    obtain ⟨b, hb⟩ := findBestAt_isSome proto_perf mask
      ((start : ℚ) + UCP_PROTO_MSGLEN_EPSILON) hmask hne
    obtain ⟨hb64, hbit, -, -, -⟩ := findBestAt_spec proto_perf mask _ b hb
    rw [selectBestGo, hb]
    simp only []
    by_cases hc : findMidpoint proto_perf (mask ^^^ (1 <<< b.1)) b.1 start endv < endv
    · rw [if_pos hc]
      have hmask2 : mask ^^^ (1 <<< b.1) < 2 ^ UCP_PROTO_MAX_COUNT := by
        refine Nat.xor_lt_two_pow hmask ?_
        rw [Nat.one_shiftLeft]
        exact Nat.pow_lt_pow_right (by norm_num) hb64
      have hne2 : mask ^^^ (1 <<< b.1) ≠ 0 :=
        findMidpoint_lt_nonempty proto_perf _ b.1 start endv hmask2 hc
      have hcard2 : maskCard (mask ^^^ (1 <<< b.1)) = m := by
        rw [maskCard_clear mask b.1 hbit hb64, hcard]
        omega
      exact ih m (by omega) _ _ _ hcard2 hne2 hmask2
    · rw [if_neg hc]
      exact ⟨_, rfl⟩

/-- C9: for a non-empty active mask the lower-envelope loop of
`ucp_proto_thresholds_select_best` terminates within `popcount(mask)`
iterations (that much fuel already yields the result), and the
`proto_mask != 0` assertion at the top of each iteration never fails: the
loop always produces a result instead of the `none` that models a failed
assertion. -/
theorem c9_select_best_terminates (proto_perf : Nat → ucs_linear_func_t)
    (proto_mask start endv : Nat) (lst : List ucp_proto_threshold_tmp_elem_t)
    (hne : proto_mask ≠ 0) (hmask : proto_mask < 2 ^ UCP_PROTO_MAX_COUNT) :
    ∃ out, selectBestGo proto_perf (maskCard proto_mask) proto_mask start endv lst = some out ∧
      ucp_proto_thresholds_select_best proto_perf proto_mask start endv lst = some out := by
  obtain ⟨out, hout⟩ := selectBestGo_card proto_perf endv (maskCard proto_mask)
    proto_mask start lst rfl hne hmask
  exact ⟨out, hout, selectBestGo_mono proto_perf endv _ _ _ _ _ _ hout (maskCard_le _)⟩

/-! ## Hash-table model lemmas -/

theorem lookup_kh_del (h : List (Nat × List ucp_proto_threshold_elem_t)) (k : Nat) :
    List.lookup k (kh_del h k) = none := by
  induction h with
  | nil => rfl
  | cons a rest ih =>
    obtain ⟨a1, a2⟩ := a
    show List.lookup k (List.filter (fun kv => kv.1 != k) ((a1, a2) :: rest)) = none
    rw [List.filter_cons]
    by_cases hk : a1 = k
    · rw [if_neg (by simp [hk])]
      exact ih
    · rw [if_pos (by simp [hk])]
      show List.lookup k ((a1, a2) :: List.filter (fun kv => kv.1 != k) rest) = none
      simp only [List.lookup]
      rw [show (k == a1) = false from beq_eq_false_iff_ne.mpr (fun hc => hk hc.symm)]
      exact ih

theorem lookup_cons_none (a1 : Nat) (a2 : List ucp_proto_threshold_elem_t)
    (rest : List (Nat × List ucp_proto_threshold_elem_t)) (k : Nat)
    (hn : List.lookup k ((a1, a2) :: rest) = none) :
    (k == a1) = false ∧ List.lookup k rest = none := by
  simp only [List.lookup] at hn
  cases h2 : (k == a1) with
  | false =>
    rw [h2] at hn
    exact ⟨rfl, hn⟩
  | true =>
    rw [h2] at hn
    exact absurd hn (by simp)

theorem lookup_kh_set_fresh (h : List (Nat × List ucp_proto_threshold_elem_t)) (k : Nat)
    (v0 v : List ucp_proto_threshold_elem_t) (hn : List.lookup k h = none) :
    List.lookup k (kh_set (h ++ [(k, v0)]) k v) = some v := by
  induction h with
  | nil =>
    show List.lookup k [if k = k then (k, v) else (k, v0)] = some v
    rw [if_pos rfl]
    simp [List.lookup]
  | cons a rest ih =>
    obtain ⟨a1, a2⟩ := a
    obtain ⟨hne, hn2⟩ := lookup_cons_none a1 a2 rest k hn
    have hne2 : ¬ (a1 = k) := by
      intro hc
      rw [hc] at hne
      simp at hne
    show List.lookup k
      ((if a1 = k then (k, v) else (a1, a2)) :: kh_set (rest ++ [(k, v0)]) k v) = some v
    rw [if_neg hne2]
    simp only [List.lookup]
    rw [hne]
    exact ih hn2

theorem lookup_slow_fresh (protos : List (Option ucp_proto_caps_t))
    (ps : ucp_proto_select_t) (param : Nat)
    (hfresh : ps.hash.lookup param = none) :
    ucp_proto_select_lookup_slow protos ps param =
      (match ucp_proto_select_elem_init protos with
        | .error _ =>
          some (⟨kh_del (ps.hash ++ [(param, [])]) param, ⟨UINT64_MAX, none⟩⟩, none)
        | .ok elem =>
          some (⟨kh_set (ps.hash ++ [(param, [])]) param elem, ⟨UINT64_MAX, none⟩⟩,
            some elem)) := by
  have hput : kh_put ps.hash param = (ps.hash ++ [(param, [])], .bucket_empty) := by
    simp [kh_put, hfresh]
  simp only [ucp_proto_select_lookup_slow, hput]
  rw [if_neg (by simp)]
  cases helem : ucp_proto_select_elem_init protos with
  | error err => rfl
  | ok elem => rfl

/-- C10: the always-enabled fresh-bucket assertion makes non-presence of the
selection parameters a precondition of the slow lookup: with the key already
stored in the hash, the call does not return the existing entry but fails the
assertion (modelled by the `none` outer result). -/
theorem c10_lookup_slow_key_present_aborts (protos : List (Option ucp_proto_caps_t))
    (ps : ucp_proto_select_t) (param : Nat) (v : List ucp_proto_threshold_elem_t)
    (hpresent : ps.hash.lookup param = some v) :
    ucp_proto_select_lookup_slow protos ps param = none := by
  have hput : kh_put ps.hash param = (ps.hash, .key_present) := by
    simp [kh_put, hpresent]
  simp [ucp_proto_select_lookup_slow, hput]

theorem c10_lookup_slow_key_present_aborts_witness :
    (⟨[(5, [])], ⟨UINT64_MAX, none⟩⟩ : ucp_proto_select_t).hash.lookup 5 = some [] ∧
    ucp_proto_select_lookup_slow exSimpleProtos ⟨[(5, [])], ⟨UINT64_MAX, none⟩⟩ 5 = none :=
  ⟨rfl, c10_lookup_slow_key_present_aborts exSimpleProtos ⟨[(5, [])], ⟨UINT64_MAX, none⟩⟩ 5 []
    rfl⟩

/-- C7: called on parameters not yet in the hash, the slow lookup inserts a
fresh slot; if element construction fails with any error it deletes that slot
again and returns NULL, leaving no entry for the parameters in the hash, and
on success it returns the populated value slot, which the hash then holds for
the parameters. -/
theorem c7_lookup_slow_unwinds (protos : List (Option ucp_proto_caps_t))
    (ps : ucp_proto_select_t) (param : Nat)
    (hfresh : ps.hash.lookup param = none) :
    (∀ err, ucp_proto_select_elem_init protos = .error err →
      ∃ ps2, ucp_proto_select_lookup_slow protos ps param = some (ps2, none) ∧
        ps2.hash.lookup param = none) ∧
    (∀ elem, ucp_proto_select_elem_init protos = .ok elem →
      ∃ ps2, ucp_proto_select_lookup_slow protos ps param = some (ps2, some elem) ∧
        ps2.hash.lookup param = some elem) := by
  rw [lookup_slow_fresh protos ps param hfresh]
  constructor
  · intro err herr
    rw [herr]
    exact ⟨_, rfl, lookup_kh_del _ _⟩
  · intro elem helem
    rw [helem]
    exact ⟨_, rfl, lookup_kh_set_fresh ps.hash param [] elem hfresh⟩

theorem c7_lookup_slow_unwinds_witness :
    ucp_proto_select_init.hash.lookup 7 = none ∧
    ((∀ err, ucp_proto_select_elem_init exSimpleProtos = .error err →
      ∃ ps2, ucp_proto_select_lookup_slow exSimpleProtos ucp_proto_select_init 7 =
          some (ps2, none) ∧ ps2.hash.lookup 7 = none) ∧
    (∀ elem, ucp_proto_select_elem_init exSimpleProtos = .ok elem →
      ∃ ps2, ucp_proto_select_lookup_slow exSimpleProtos ucp_proto_select_init 7 =
          some (ps2, some elem) ∧ ps2.hash.lookup 7 = some elem)) :=
  ⟨rfl, c7_lookup_slow_unwinds exSimpleProtos ucp_proto_select_init 7 rfl⟩

/-- C8: whenever the slow lookup returns (success or failure alike), the MRU
cache of the returned selection state is in its reset sentinel state: key
`UINT64_MAX` and NULL value (the reset happens right after the hash insertion,
and nothing after it touches the cache). -/
theorem c8_cache_reset_on_lookup_slow (protos : List (Option ucp_proto_caps_t))
    (ps : ucp_proto_select_t) (param : Nat) (ps2 : ucp_proto_select_t)
    (r : Option (List ucp_proto_threshold_elem_t))
    (h : ucp_proto_select_lookup_slow protos ps param = some (ps2, r)) :
    ps2.cache = ⟨UINT64_MAX, none⟩ := by
  simp only [ucp_proto_select_lookup_slow] at h
  split at h
  · exact absurd h (by simp)
  · split at h
    · simp only [Option.some.injEq, Prod.mk.injEq] at h
      rw [← h.1]
      rfl
    · simp only [Option.some.injEq, Prod.mk.injEq] at h
      rw [← h.1]
      rfl

unseal Rat.add Rat.mul Rat.sub Rat.inv Rat.ofScientific in
theorem c8_cache_reset_on_lookup_slow_witness :
    ucp_proto_select_lookup_slow exSimpleProtos ucp_proto_select_init 7 =
      some (⟨[(7, [⟨SIZE_MAX, 0⟩])], ⟨UINT64_MAX, none⟩⟩, some [⟨SIZE_MAX, 0⟩]) ∧
    (⟨[(7, [⟨SIZE_MAX, 0⟩])], ⟨UINT64_MAX, none⟩⟩ : ucp_proto_select_t).cache =
      ⟨UINT64_MAX, none⟩ :=
  ⟨by decide,
    c8_cache_reset_on_lookup_slow exSimpleProtos ucp_proto_select_init 7
      ⟨[(7, [⟨SIZE_MAX, 0⟩])], ⟨UINT64_MAX, none⟩⟩ (some [⟨SIZE_MAX, 0⟩]) (by decide)⟩

/-! ## Claim C5: the range-narrowing formula -/

/-- C5 (amended): the `max_length` of a range-narrowing step equals the
minimum of `SIZE_MAX`, the containing-range `max_length` of every protocol
passing the `min_length` check, and `cfg_thresh - 1` for every such protocol
whose finite `cfg_thresh` exceeds `msg_length` (the claim's version also
counts the threshold term of protocols that fail the `min_length` check,
which the code skips); and every protocol with a finite `cfg_thresh` above
`msg_length` is excluded from the valid mask. -/
theorem c5_max_length_narrowing (proto_mask : Nat) (proto_caps : Nat → ucp_proto_caps_t)
    (msg_length : Nat) (hmask : proto_mask < 2 ^ UCP_PROTO_MAX_COUNT) :
    (selectNextCalc proto_mask proto_caps msg_length).max_length =
      claimMaxLengthAmended proto_mask proto_caps msg_length ∧
    (∀ p t, (proto_caps p).cfg_thresh = .val t → msg_length < t →
      (selectNextCalc proto_mask proto_caps msg_length).valid_mask.testBit p = false) := by
  refine ⟨selectNextCalc_max_eq_amended _ _ _, ?_⟩
  intro p t ht hlt
  by_contra hb
  rw [Bool.not_eq_false] at hb
  rw [selectNextCalc_valid_iff proto_mask proto_caps msg_length hmask p] at hb
  exact hb.2.2 (Or.inr ⟨t, ht, hlt⟩)

theorem c5_max_length_narrowing_witness :
    (3 : Nat) < 2 ^ UCP_PROTO_MAX_COUNT ∧
    ((selectNextCalc 3 exC5caps 0).max_length = claimMaxLengthAmended 3 exC5caps 0 ∧
    (∀ p t, (exC5caps p).cfg_thresh = .val t → 0 < t →
      (selectNextCalc 3 exC5caps 0).valid_mask.testBit p = false)) :=
  ⟨by decide, c5_max_length_narrowing 3 exC5caps 0 (by decide)⟩

/-- C5 counterexample: with protocol 0 restricted to lengths at least 100 and
user threshold 10, and an unrestricted protocol 1, at `msg_length = 0` the
code keeps `max_length = SIZE_MAX` (protocol 0's `min_length` check skips its
threshold term), while the claim's formula demands
`min (SIZE_MAX, cfg_thresh - 1) = 9`. -/
theorem c5_claim_formula_counterexample :
    (selectNextCalc 3 exC5caps 0).max_length ≠ claimMaxLength 3 exC5caps 0 ∧
    (selectNextCalc 3 exC5caps 0).max_length = SIZE_MAX ∧
    claimMaxLength 3 exC5caps 0 = 9 :=
  ⟨by decide, by decide, by decide⟩

/-! ## Witnesses for the claims settled above -/

unseal Rat.add Rat.mul Rat.sub Rat.inv Rat.ofScientific in
theorem c2_thresholds_sorted_final_witness :
    ucp_proto_select_elem_init exSimpleProtos = .ok [⟨SIZE_MAX, 0⟩] ∧
    (([⟨SIZE_MAX, 0⟩] : List ucp_proto_threshold_elem_t) ≠ [] ∧
      List.Chain' (fun a b => a.max_msg_length < b.max_msg_length)
        ([⟨SIZE_MAX, 0⟩] : List ucp_proto_threshold_elem_t) ∧
      (∃ e, ([⟨SIZE_MAX, 0⟩] : List ucp_proto_threshold_elem_t).getLast? = some e ∧
        e.max_msg_length = SIZE_MAX)) := by
  have h : ucp_proto_select_elem_init exSimpleProtos = .ok [⟨SIZE_MAX, 0⟩] := by decide
  exact ⟨h, c2_thresholds_sorted_final exSimpleProtos [⟨SIZE_MAX, 0⟩] h⟩

unseal Rat.add Rat.mul Rat.sub Rat.inv Rat.ofScientific in
theorem c4_inf_never_selected_witness :
    exInfProtos.length ≤ UCP_PROTO_MAX_COUNT ∧
    ucp_proto_select_elem_init exInfProtos = .ok [⟨SIZE_MAX, 0⟩] ∧
    exInfProtos.get? 1 = some (some ⟨0, [⟨SIZE_MAX, ⟨1, 0⟩⟩], .inf⟩) ∧
    (∀ e, e ∈ ([⟨SIZE_MAX, 0⟩] : List ucp_proto_threshold_elem_t) → e.proto_id ≠ 1) := by
  have h : ucp_proto_select_elem_init exInfProtos = .ok [⟨SIZE_MAX, 0⟩] := by decide
  exact ⟨by decide, h, rfl,
    c4_inf_never_selected exInfProtos [⟨SIZE_MAX, 0⟩] 1 ⟨0, [⟨SIZE_MAX, ⟨1, 0⟩⟩], .inf⟩
      (by decide) h rfl rfl⟩

theorem c6_search_slow_correct_witness :
    (([⟨10, 0⟩, ⟨SIZE_MAX, 1⟩] : List ucp_proto_threshold_elem_t) ≠ []) ∧
    (∃ e, ([⟨10, 0⟩, ⟨SIZE_MAX, 1⟩] : List ucp_proto_threshold_elem_t).getLast? = some e ∧
      e.max_msg_length = SIZE_MAX) ∧
    (11 : Nat) ≤ SIZE_MAX ∧
    (∃ i e, ([⟨10, 0⟩, ⟨SIZE_MAX, 1⟩] : List ucp_proto_threshold_elem_t).get? i = some e ∧
      ucp_proto_thresholds_search_slow [⟨10, 0⟩, ⟨SIZE_MAX, 1⟩] 11 = some e ∧
      11 ≤ e.max_msg_length ∧
      ∀ j e2, j < i →
        ([⟨10, 0⟩, ⟨SIZE_MAX, 1⟩] : List ucp_proto_threshold_elem_t).get? j = some e2 →
        e2.max_msg_length < 11) :=
  ⟨by decide, ⟨⟨SIZE_MAX, 1⟩, rfl, rfl⟩, by decide,
    c6_search_slow_correct [⟨10, 0⟩, ⟨SIZE_MAX, 1⟩] 11 (by decide) ⟨⟨SIZE_MAX, 1⟩, rfl, rfl⟩
      (by decide)⟩

unseal Rat.add Rat.mul Rat.sub Rat.inv Rat.ofScientific in
theorem c9_select_best_terminates_witness :
    (3 : Nat) ≠ 0 ∧ (3 : Nat) < 2 ^ UCP_PROTO_MAX_COUNT ∧
    ∃ out, selectBestGo (fun _ => ⟨0, 0⟩) (maskCard 3) 3 0 SIZE_MAX [] = some out ∧
      ucp_proto_thresholds_select_best (fun _ => ⟨0, 0⟩) 3 0 SIZE_MAX [] = some out :=
  ⟨by decide, by decide,
    c9_select_best_terminates (fun _ => ⟨0, 0⟩) 3 0 SIZE_MAX [] (by decide) (by decide)⟩

/-! ## Sweep region structure -/

theorem regionStart_le (proto_mask : Nat) (proto_caps : Nat → ucp_proto_caps_t)
    (m : Nat) (h : IsRegionStart proto_mask proto_caps m) : m ≤ SIZE_MAX := by
  induction h with
  | zero => exact Nat.zero_le _
  | step msg hstart hlt ih => omega

theorem regionEnd_ge (proto_mask : Nat) (proto_caps : Nat → ucp_proto_caps_t)
    (m : Nat) (h : IsRegionStart proto_mask proto_caps m) :
    m ≤ regionEnd proto_mask proto_caps m :=
  selectNextCalc_max_ge proto_mask proto_caps m (regionStart_le proto_mask proto_caps m h)

theorem regionStart_pred (proto_mask : Nat) (proto_caps : Nat → ucp_proto_caps_t)
    (m : Nat) (h : IsRegionStart proto_mask proto_caps m) :
    m = 0 ∨ ∃ m2, IsRegionStart proto_mask proto_caps m2 ∧
      regionEnd proto_mask proto_caps m2 < SIZE_MAX ∧
      m = regionEnd proto_mask proto_caps m2 + 1 := by
  cases h with
  | zero => exact Or.inl rfl
  | step msg hstart hlt => exact Or.inr ⟨msg, hstart, hlt, rfl⟩

theorem regionStart_chain (proto_mask : Nat) (proto_caps : Nat → ucp_proto_caps_t) :
    ∀ m2, IsRegionStart proto_mask proto_caps m2 →
    ∀ m1, IsRegionStart proto_mask proto_caps m1 → m1 < m2 →
    regionEnd proto_mask proto_caps m1 < m2 := by
  intro m2
  induction m2 using Nat.strong_induction_on with
  | _ m2 ih =>
    intro h2 m1 h1 hlt
    rcases regionStart_pred proto_mask proto_caps m2 h2 with rfl | ⟨mp, hp, hpe, rfl⟩
    · omega
    · have hple : mp ≤ regionEnd proto_mask proto_caps mp := regionEnd_ge _ _ mp hp
      rcases Nat.lt_trichotomy m1 mp with hc | rfl | hc
      · have := ih mp (by omega) hp m1 h1 hc
        omega
      · omega
      · have := ih m1 (by omega) h1 mp hp hc
        omega

theorem regionOf_exists (proto_mask : Nat) (proto_caps : Nat → ucp_proto_caps_t) :
    ∀ L, L ≤ SIZE_MAX → ∃ m, IsRegionStart proto_mask proto_caps m ∧ m ≤ L ∧
      L ≤ regionEnd proto_mask proto_caps m := by
  intro L
  induction L using Nat.strong_induction_on with
  | _ L ih =>
    intro hL
    cases L with
    | zero =>
      exact ⟨0, IsRegionStart.zero, Nat.le_refl _,
        selectNextCalc_max_ge proto_mask proto_caps 0 (Nat.zero_le _)⟩
    | succ L0 =>
      obtain ⟨m, hm, hle, hend⟩ := ih L0 (by omega) (by omega)
      by_cases hcase : L0 + 1 ≤ regionEnd proto_mask proto_caps m
      · exact ⟨m, hm, by omega, hcase⟩
      · have hEeq : (selectNextCalc proto_mask proto_caps m).max_length = L0 := by
          have h1 : regionEnd proto_mask proto_caps m ≤ L0 := by omega
          have h2 : L0 ≤ regionEnd proto_mask proto_caps m := hend
          exact le_antisymm h1 h2
        have hlt : (selectNextCalc proto_mask proto_caps m).max_length < SIZE_MAX := by
          rw [hEeq]; omega
        have hstart := IsRegionStart.step m hm hlt
        rw [hEeq] at hstart
        exact ⟨L0 + 1, hstart, Nat.le_refl _,
          selectNextCalc_max_ge proto_mask proto_caps (L0 + 1) hL⟩

theorem claimMaxLengthAmendedAux_mono (proto_mask : Nat) (proto_caps : Nat → ucp_proto_caps_t)
    (msg_length n : Nat) :
    claimMaxLengthAmendedAux proto_mask proto_caps msg_length (n + 1) ≤
      claimMaxLengthAmendedAux proto_mask proto_caps msg_length n := by
  rw [claimMaxLengthAmendedAux_succ]
  split
  · split
    · exact min_le_left _ _
    · exact Nat.le_refl _
  · exact Nat.le_refl _

theorem claimMaxLengthAmendedAux_le_contrib (proto_mask : Nat)
    (proto_caps : Nat → ucp_proto_caps_t) (msg_length p : Nat)
    (hbit : proto_mask.testBit p = true)
    (hmin : (proto_caps p).min_length ≤ msg_length) :
    ∀ n, p < n →
    claimMaxLengthAmendedAux proto_mask proto_caps msg_length n ≤
      stepContribution (proto_caps p) msg_length := by
  intro n
  induction n with
  | zero => intro h; omega
  | succ n ih =>
    intro hp
    rcases Nat.lt_or_ge p n with hc | hc
    · exact le_trans (claimMaxLengthAmendedAux_mono _ _ _ _) (ih hc)
    · have hpn : p = n := by omega
      subst hpn
      rw [claimMaxLengthAmendedAux_succ, if_pos hbit, if_pos hmin]
      refine le_trans (min_le_right _ _) ?_
      unfold stepContribution
      rw [if_neg (by omega)]

theorem regionEnd_le_thresh (proto_mask : Nat) (proto_caps : Nat → ucp_proto_caps_t)
    (msg_length p t : Nat) (hmask : proto_mask < 2 ^ UCP_PROTO_MAX_COUNT)
    (hbit : proto_mask.testBit p = true)
    (hmin : (proto_caps p).min_length ≤ msg_length)
    (ht : (proto_caps p).cfg_thresh = .val t) (hlt : msg_length < t) :
    regionEnd proto_mask proto_caps msg_length ≤ t - 1 := by
  have hp : p < UCP_PROTO_MAX_COUNT := testBit_lt_width hmask hbit
  have h1 : regionEnd proto_mask proto_caps msg_length ≤
      stepContribution (proto_caps p) msg_length := by
    show (selectNextCalc proto_mask proto_caps msg_length).max_length ≤ _
    rw [selectNextCalc_eq_aux, selectNextCalcAux_max_eq]
    exact claimMaxLengthAmendedAux_le_contrib proto_mask proto_caps msg_length p hbit hmin
      UCP_PROTO_MAX_COUNT hp
  refine le_trans h1 ?_
  unfold stepContribution
  rw [if_neg (by omega), ht]
  dsimp only
  rw [if_pos hlt]
  exact min_le_right _ _

theorem exists_testBit_of_ne_zero {n : Nat} (h : n ≠ 0) : ∃ i, n.testBit i = true := by
  by_contra hc
  push_neg at hc
  apply h
  refine Nat.eq_of_testBit_eq fun i => ?_
  rw [Nat.zero_testBit]
  exact Bool.eq_false_iff.mpr (hc i)

theorem competeMask_iff (proto_mask : Nat) (proto_caps : Nat → ucp_proto_caps_t)
    (msg_length : Nat) (hmask : proto_mask < 2 ^ UCP_PROTO_MAX_COUNT) (p : Nat) :
    (competeMask proto_mask proto_caps msg_length).testBit p = true ↔
      claimCompete proto_caps proto_mask msg_length p := by
  have hforce : (∃ q, q < UCP_PROTO_MAX_COUNT ∧
      claimCandidate proto_caps proto_mask msg_length q ∧
      forcedAt (proto_caps q) msg_length) ↔
      (selectNextCalc proto_mask proto_caps msg_length).forced_mask &&&
        (selectNextCalc proto_mask proto_caps msg_length).valid_mask ≠ 0 := by
    constructor
    · rintro ⟨q, hq, hcand, hf⟩
      intro h0
      obtain ⟨hc1, hc2, hc3⟩ := hcand
      have hbitq : ((selectNextCalc proto_mask proto_caps msg_length).forced_mask &&&
          (selectNextCalc proto_mask proto_caps msg_length).valid_mask).testBit q = true := by
        rw [Nat.testBit_and]
        rw [(selectNextCalc_forced_iff proto_mask proto_caps msg_length hmask q).mpr
          ⟨hc1, hc2.1, hf⟩]
        rw [(selectNextCalc_valid_iff proto_mask proto_caps msg_length hmask q).mpr
          ⟨hc1, hc2, hc3⟩]
        rfl
      rw [h0, Nat.zero_testBit] at hbitq
      exact absurd hbitq (by simp)
    · intro hne
      obtain ⟨q, hq⟩ := exists_testBit_of_ne_zero hne
      rw [Nat.testBit_and, Bool.and_eq_true] at hq
      obtain ⟨hfq, hvq⟩ := hq
      rw [selectNextCalc_forced_iff proto_mask proto_caps msg_length hmask q] at hfq
      rw [selectNextCalc_valid_iff proto_mask proto_caps msg_length hmask q] at hvq
      exact ⟨q, testBit_lt_width hmask hvq.1, ⟨hvq.1, hvq.2.1, hvq.2.2⟩, hfq.2.2⟩
  simp only [competeMask]
  by_cases hc : (selectNextCalc proto_mask proto_caps msg_length).forced_mask &&&
      (selectNextCalc proto_mask proto_caps msg_length).valid_mask ≠ 0
  · rw [if_pos hc]
    constructor
    · intro h
      rw [Nat.testBit_and, Bool.and_eq_true] at h
      obtain ⟨hf, hv⟩ := h
      rw [selectNextCalc_forced_iff proto_mask proto_caps msg_length hmask p] at hf
      rw [selectNextCalc_valid_iff proto_mask proto_caps msg_length hmask p] at hv
      exact ⟨⟨hv.1, hv.2.1, hv.2.2⟩, fun _ => hf.2.2⟩
    · rintro ⟨hcand, himp⟩
      have hf := himp (hforce.mpr hc)
      obtain ⟨hc1, hc2, hc3⟩ := hcand
      rw [Nat.testBit_and, Bool.and_eq_true]
      constructor
      · rw [selectNextCalc_forced_iff proto_mask proto_caps msg_length hmask p]
        exact ⟨hc1, hc2.1, hf⟩
      · rw [selectNextCalc_valid_iff proto_mask proto_caps msg_length hmask p]
        exact ⟨hc1, hc2, hc3⟩
  · rw [if_neg hc]
    constructor
    · intro h
      rw [selectNextCalc_valid_iff proto_mask proto_caps msg_length hmask p] at h
      exact ⟨⟨h.1, h.2.1, h.2.2⟩, fun ha => absurd (hforce.mp ha) hc⟩
    · rintro ⟨hcand, -⟩
      obtain ⟨hc1, hc2, hc3⟩ := hcand
      rw [selectNextCalc_valid_iff proto_mask proto_caps msg_length hmask p]
      exact ⟨hc1, hc2, hc3⟩

theorem bestIdAt_claimBest (proto_mask : Nat) (proto_caps : Nat → ucp_proto_caps_t)
    (msg_length p : Nat) (hmask : proto_mask < 2 ^ UCP_PROTO_MAX_COUNT)
    (hb : bestIdAt proto_mask proto_caps msg_length p) :
    claimBestProtoForced proto_caps proto_mask msg_length p := by
  obtain ⟨c, hc⟩ := hb
  obtain ⟨hp64, hpbit, hceq, hminc, htie⟩ := findBestAt_spec _ _ _ (p, c) hc
  have hcost : ∀ q, (competeMask proto_mask proto_caps msg_length).testBit q = true →
      ucs_linear_func_apply ((selectNextCalc proto_mask proto_caps msg_length).proto_perf q)
        ((msg_length : ℚ) + UCP_PROTO_MSGLEN_EPSILON) =
        protoCostAt (proto_caps q) msg_length := by
    intro q hq
    obtain ⟨hqbit, hqvalid, -⟩ :=
      ((competeMask_iff proto_mask proto_caps msg_length hmask q).mp hq).1
    obtain ⟨hqmin, hqsome⟩ := hqvalid
    rcases hr : containingRange (proto_caps q) msg_length with _ | r
    · rw [hr] at hqsome
      exact absurd hqsome (by simp)
    · rw [selectNextCalc_perf proto_mask proto_caps msg_length hmask q r hqbit hqmin hr]
      unfold protoCostAt
      rw [hr]
      rfl
  have hpc := (competeMask_iff proto_mask proto_caps msg_length hmask p).mp hpbit
  refine ⟨hpc, ?_, ?_⟩
  · intro q hq64 hqc
    have hqbit := (competeMask_iff proto_mask proto_caps msg_length hmask q).mpr hqc
    have h1 := hminc q hq64 hqbit
    rw [← hcost p hpbit, ← hcost q hqbit, ← hceq]
    exact h1
  · intro q hq64 hqc hle
    by_contra hgt
    push_neg at hgt
    have hqbit := (competeMask_iff proto_mask proto_caps msg_length hmask q).mpr hqc
    have h2 := htie q hq64 hqbit hgt
    rw [← hcost p hpbit, ← hcost q hqbit, ← hceq] at hle
    exact absurd h2 (not_lt.mpr hle)

/-! ## Coverage of the emitted entries -/

theorem entryCoverOK_extend (proto_mask : Nat) (proto_caps : Nat → ucp_proto_caps_t)
    (s hmax mp pid start : Nat)
    (hold : entryCoverOK proto_mask proto_caps s hmax pid)
    (hnew : entryCoverOK proto_mask proto_caps start mp pid)
    (hht : hmax + 1 = start) (hmx : hmax ≤ mp) :
    entryCoverOK proto_mask proto_caps s mp pid := by
  constructor
  · intro m hm h1 h2
    rcases le_or_lt m hmax with hc | hc
    · exact hold.1 m hm hc h2
    · refine hnew.1 m hm h1 (le_trans ?_ (regionEnd_ge _ _ _ hm))
      omega
  · intro m hm h1 h2
    rcases le_or_lt m hmax with hc | hc
    · exact hold.2 m hm h1 hc
    · exact hnew.2 m hm (by omega) h2

theorem selectBestGo_cover (proto_mask : Nat) (proto_caps : Nat → ucp_proto_caps_t)
    (rstart : Nat) (hr : IsRegionStart proto_mask proto_caps rstart) :
    ∀ (fuel mask2 start : Nat) (lst out : List ucp_proto_threshold_tmp_elem_t),
    selectBestGo (selectNextCalc proto_mask proto_caps rstart).proto_perf fuel mask2 start
      (regionEnd proto_mask proto_caps rstart) lst = some out →
    (∀ p, mask2.testBit p = true →
      (competeMask proto_mask proto_caps rstart).testBit p = true) →
    rstart ≤ start →
    start ≤ regionEnd proto_mask proto_caps rstart →
    (start = rstart → mask2 = competeMask proto_mask proto_caps rstart) →
    ((lst = [] ∧ start = rstart ∧ rstart = 0) ∨
      (∃ h t, lst = h :: t ∧ h.max_length + 1 = start)) →
    rcoverOK proto_mask proto_caps lst →
    rcoverOK proto_mask proto_caps out := by
  intro fuel
  induction fuel with
  | zero =>
    intro mask2 start lst out hrun
    exact absurd hrun (by simp [selectBestGo])
  | succ fuel ih =>
    intro mask2 start lst out hrun hsub hrs hse hrs2 hshape hcov
    rw [selectBestGo] at hrun
    rcases hb : findBestAt (selectNextCalc proto_mask proto_caps rstart).proto_perf mask2
        ((start : ℚ) + UCP_PROTO_MSGLEN_EPSILON) with _ | b
    · rw [hb] at hrun
      exact absurd hrun (by simp)
    · rw [hb] at hrun
      simp only [] at hrun
      obtain ⟨-, hb2, -, -, -⟩ := findBestAt_spec _ _ _ b hb
      set mask3 := mask2 ^^^ (1 <<< b.1) with hmask3
      set mp := findMidpoint (selectNextCalc proto_mask proto_caps rstart).proto_perf mask3 b.1
        start (regionEnd proto_mask proto_caps rstart) with hmp
      have hmple : mp ≤ regionEnd proto_mask proto_caps rstart := findMidpoint_le _ _ _ _ _
      have hmpge : start ≤ mp := findMidpoint_ge _ _ _ _ _ hse
      have hbcomp : (competeMask proto_mask proto_caps rstart).testBit b.1 = true :=
        hsub b.1 hb2
      have hmreg : ∀ m, IsRegionStart proto_mask proto_caps m → m ≤ mp →
          start ≤ regionEnd proto_mask proto_caps m → m = rstart := by
        intro m hm hm1 hm2
        rcases Nat.lt_trichotomy m rstart with hc | rfl | hc
        · have := regionStart_chain proto_mask proto_caps rstart hr m hm hc
          omega
        · rfl
        · have := regionStart_chain proto_mask proto_caps m hm rstart hr hc
          omega
      have hnewcover : entryCoverOK proto_mask proto_caps start mp b.1 := by
        constructor
        · intro m hm h1 h2
          rw [hmreg m hm h1 h2]
          exact hbcomp
        · intro m hm h1 h2
          have hmr : m = rstart := hmreg m hm h2 (le_trans h1 (regionEnd_ge _ _ _ hm))
          subst hmr
          have hseq : start = m := le_antisymm h1 hrs
          refine ⟨b.2, ?_⟩
          rw [← hrs2 hseq]
          have hcast : ((m : ℚ)) = (start : ℚ) := by rw [hseq]
          rw [hcast]
          exact hb
      have hcov2 : rcoverOK proto_mask proto_caps (ucp_proto_thresholds_append lst mp b.1) := by
        rcases hshape with ⟨hnil, hsr, hr0⟩ | ⟨h0, t0, hlsteq, hht⟩
        · subst hnil
          show rcoverOK proto_mask proto_caps [⟨mp, b.1⟩]
          have hz : (0 : Nat) = start := by omega
          have : entryCoverOK proto_mask proto_caps 0 mp b.1 := by
            rw [hz]
            exact hnewcover
          exact this
        · rw [hlsteq]
          rw [hlsteq] at hcov
          simp only [ucp_proto_thresholds_append]
          by_cases hpd : h0.proto_id = b.1
          · rw [if_pos hpd]
            cases t0 with
            | nil =>
              have hold : entryCoverOK proto_mask proto_caps 0 h0.max_length h0.proto_id :=
                hcov
              rw [hpd] at hold
              have : entryCoverOK proto_mask proto_caps 0 mp b.1 :=
                entryCoverOK_extend proto_mask proto_caps 0 h0.max_length mp b.1 start hold
                  hnewcover hht (by omega)
              exact this
            | cons f t1 =>
              obtain ⟨hold, hrest⟩ :
                  entryCoverOK proto_mask proto_caps (f.max_length + 1) h0.max_length
                    h0.proto_id ∧ rcoverOK proto_mask proto_caps (f :: t1) := hcov
              rw [hpd] at hold
              exact ⟨entryCoverOK_extend proto_mask proto_caps (f.max_length + 1) h0.max_length
                mp b.1 start hold hnewcover hht (by omega), hrest⟩
          · rw [if_neg hpd]
            refine ⟨?_, hcov⟩
            rw [hht]
            exact hnewcover
      obtain ⟨t2, heq2, hsub2⟩ := thresholds_append_shape lst mp b.1
      by_cases hcond : mp < regionEnd proto_mask proto_caps rstart
      · rw [if_pos hcond] at hrun
        refine ih mask3 (mp + 1) (ucp_proto_thresholds_append lst mp b.1) out hrun ?_ ?_ ?_ ?_
          ?_ hcov2
        · intro p hp2
          exact hsub p (testBit_xor_clear hp2 hb2).1
        · omega
        · omega
        · intro hcontra
          exact absurd hcontra (by omega)
        · exact Or.inr ⟨⟨mp, b.1⟩, t2, heq2, rfl⟩
      · rw [if_neg hcond] at hrun
        have hout : ucp_proto_thresholds_append lst mp b.1 = out := by
          cases hrun
          rfl
        rw [← hout]
        exact hcov2

theorem initThreshGo_cover (proto_mask : Nat) (proto_caps : Nat → ucp_proto_caps_t) :
    ∀ (fuel msg_length : Nat) (lst out : List ucp_proto_threshold_tmp_elem_t),
    initThreshGo proto_mask proto_caps fuel msg_length lst = .ok out →
    IsRegionStart proto_mask proto_caps msg_length →
    ((lst = [] ∧ msg_length = 0) ∨
      (∃ h t, lst = h :: t ∧ h.max_length + 1 = msg_length)) →
    RSortedTmp lst → (∀ e, e ∈ lst → e.max_length < msg_length) →
    rcoverOK proto_mask proto_caps lst →
    rcoverOK proto_mask proto_caps out := by
  intro fuel
  induction fuel with
  | zero =>
    intro msg lst out h
    exact absurd h (by simp [initThreshGo])
  | succ fuel ih =>
    intro msg lst out h hreg hshape hsort hlt hcov
    rw [initThreshGo_step] at h
    split at h
    · exact absurd h (by simp)
    · rename_i lst2 maxLen hn
      obtain ⟨hv, hmax, hsb⟩ := select_next_ok proto_mask proto_caps lst msg lst2 maxLen hn
      have hmsgle : msg ≤ SIZE_MAX := regionStart_le _ _ _ hreg
      have hse : msg ≤ maxLen := by
        rw [hmax]
        exact selectNextCalc_max_ge _ _ _ hmsgle
      rw [ucp_proto_thresholds_select_best] at hsb
      rw [hmax] at hsb hse
      obtain ⟨ext1, sorted1, ⟨h1, t1, heq1, hmax1⟩, mem1⟩ :=
        selectBestGo_spec (selectNextCalc proto_mask proto_caps msg).proto_perf
          (selectNextCalc proto_mask proto_caps msg).max_length UCP_PROTO_MAX_COUNT
          (competeMask proto_mask proto_caps msg) msg lst lst2 hsb hsort hlt hse
      have hcov2 : rcoverOK proto_mask proto_caps lst2 := by
        refine selectBestGo_cover proto_mask proto_caps msg hreg UCP_PROTO_MAX_COUNT
          (competeMask proto_mask proto_caps msg) msg lst lst2 hsb
          (fun p hp => hp) (Nat.le_refl _) hse (fun _ => rfl) ?_ hcov
        rcases hshape with ⟨hnil, hmsg0⟩ | hrest
        · exact Or.inl ⟨hnil, rfl, hmsg0⟩
        · exact Or.inr hrest
      split at h
      · rename_i hc
        refine ih (maxLen + 1) lst2 out h ?_ ?_ sorted1 ?_ hcov2
        · have hstep := IsRegionStart.step msg hreg (by rw [← hmax]; exact hc)
          rw [← hmax] at hstep
          exact hstep
        · refine Or.inr ⟨h1, t1, heq1, ?_⟩
          rw [hmax1, hmax]
        · intro e he
          rw [heq1] at he
          rcases List.mem_cons.mp he with rfl | hm
          · omega
          · have h2 := rsorted_head_gt (heq1 ▸ sorted1) e hm
            have h3 : h1.max_length = maxLen := by rw [hmax1, hmax]
            omega
      · have hout : out = lst2 := by
          cases h
          rfl
        subst hout
        exact hcov2

theorem tableCoverOK_append (proto_mask : Nat) (proto_caps : Nat → ucp_proto_caps_t) :
    ∀ (xs : List ucp_proto_threshold_elem_t) (s s2 : Nat) (e : ucp_proto_threshold_elem_t),
    tableCoverOK proto_mask proto_caps s xs →
    ((xs.getLast? = none ∧ s2 = s) ∨
      (∃ d, xs.getLast? = some d ∧ s2 = d.max_msg_length + 1)) →
    entryCoverOK proto_mask proto_caps s2 e.max_msg_length e.proto_id →
    tableCoverOK proto_mask proto_caps s (xs ++ [e]) := by
  intro xs
  induction xs with
  | nil =>
    intro s s2 e _ hlast hcov
    rcases hlast with ⟨-, rfl⟩ | ⟨d, hd, -⟩
    · exact ⟨hcov, trivial⟩
    · exact absurd hd (by simp)
  | cons d ds ih =>
    intro s s2 e hc hlast hcov
    obtain ⟨hd, hds⟩ := hc
    refine ⟨hd, ih (d.max_msg_length + 1) s2 e hds ?_ hcov⟩
    cases ds with
    | nil =>
      rcases hlast with ⟨hnone, -⟩ | ⟨d2, hd2, hs2⟩
      · exact absurd hnone (by simp)
      · simp only [List.getLast?_singleton, Option.some.injEq] at hd2
        subst hd2
        exact Or.inl ⟨rfl, hs2⟩
    | cons x xs2 =>
      rcases hlast with ⟨hnone, -⟩ | ⟨d2, hd2, hs2⟩
      · rw [List.getLast?_cons_cons] at hnone
        have hsome : (x :: xs2).getLast?.isSome = true := by
          rw [List.getLast?_isSome]
          simp
        rw [hnone] at hsome
        exact absurd hsome (by simp)
      · rw [List.getLast?_cons_cons] at hd2
        exact Or.inr ⟨d2, hd2, hs2⟩

theorem rcoverOK_to_table (proto_mask : Nat) (proto_caps : Nat → ucp_proto_caps_t) :
    ∀ lst, rcoverOK proto_mask proto_caps lst →
    tableCoverOK proto_mask proto_caps 0
      (lst.reverse.map
        (fun t => (⟨t.max_length, t.proto_id⟩ : ucp_proto_threshold_elem_t))) := by
  intro lst
  induction lst with
  | nil => intro _; trivial
  | cons e rest ih =>
    intro hcov
    cases rest with
    | nil =>
      show tableCoverOK proto_mask proto_caps 0 [⟨e.max_length, e.proto_id⟩]
      exact ⟨hcov, trivial⟩
    | cons f t1 =>
      obtain ⟨hold, hrest⟩ :
          entryCoverOK proto_mask proto_caps (f.max_length + 1) e.max_length e.proto_id ∧
            rcoverOK proto_mask proto_caps (f :: t1) := hcov
      have htab := ih hrest
      rw [List.reverse_cons, List.map_append]
      refine tableCoverOK_append proto_mask proto_caps _ 0 (f.max_length + 1)
        ⟨e.max_length, e.proto_id⟩ htab ?_ hold
      refine Or.inr ⟨⟨f.max_length, f.proto_id⟩, ?_, rfl⟩
      rw [List.reverse_cons, List.map_append]
      simp only [List.map_cons, List.map_nil]
      rw [List.getLast?_concat]

theorem tableCoverOK_get (proto_mask : Nat) (proto_caps : Nat → ucp_proto_caps_t) :
    ∀ (tbl : List ucp_proto_threshold_elem_t) (s i : Nat) (e : ucp_proto_threshold_elem_t),
    tableCoverOK proto_mask proto_caps s tbl → tbl.get? i = some e →
    entryCoverOK proto_mask proto_caps s e.max_msg_length e.proto_id ∨
    ∃ j d, j < i ∧ tbl.get? j = some d ∧
      entryCoverOK proto_mask proto_caps (d.max_msg_length + 1) e.max_msg_length e.proto_id := by
  intro tbl
  induction tbl with
  | nil =>
    intro s i e _ hg
    exact absurd hg (by simp)
  | cons d ds ih =>
    intro s i e hc hg
    obtain ⟨hd, hds⟩ := hc
    cases i with
    | zero =>
      simp only [List.get?_cons_zero, Option.some.injEq] at hg
      subst hg
      exact Or.inl hd
    | succ j =>
      simp only [List.get?_cons_succ] at hg
      rcases ih (d.max_msg_length + 1) j e hds hg with h1 | ⟨j2, d2, hj2, hg2, hcov2⟩
      · exact Or.inr ⟨0, d, by omega, rfl, h1⟩
      · exact Or.inr ⟨j2 + 1, d2, by omega, by simpa using hg2, hcov2⟩

theorem elem_init_thresh_cover (proto_mask : Nat) (proto_caps : Nat → ucp_proto_caps_t)
    (tbl : List ucp_proto_threshold_elem_t)
    (h : ucp_proto_select_elem_init_thresh proto_mask proto_caps = .ok tbl) :
    tableCoverOK proto_mask proto_caps 0 tbl ∧ tbl ≠ [] ∧
    (∃ e, tbl.getLast? = some e ∧ e.max_msg_length = SIZE_MAX) := by
  obtain ⟨out, hgo, htbl⟩ := elem_init_thresh_ok proto_mask proto_caps tbl h
  have hcov := initThreshGo_cover proto_mask proto_caps (2 ^ 64) 0 [] out hgo
    IsRegionStart.zero (Or.inl ⟨rfl, rfl⟩) List.chain'_nil (by simp) trivial
  obtain ⟨-, -, ⟨h1, t1, heq1, hmax1⟩, -⟩ :=
    initThreshGo_spec proto_mask proto_caps (2 ^ 64) 0 [] out hgo
      List.chain'_nil (by simp) (Nat.zero_le _)
  subst htbl
  refine ⟨rcoverOK_to_table proto_mask proto_caps out hcov, ?_, ?_⟩
  · rw [heq1]
    simp
  · rw [heq1]
    refine ⟨⟨SIZE_MAX, h1.proto_id⟩, ?_, rfl⟩
    rw [List.reverse_cons, List.map_append]
    simp only [List.map_cons, List.map_nil]
    rw [List.getLast?_concat, hmax1]

/-! ## Claims C1 and C3: which protocol the lookup selects -/

/-- C1 (amended): at every region start `L` of the sweep (in particular at 0),
the threshold lookup on a successfully built table returns the protocol
minimizing the cost read at `L + 0.5` over the competing candidates (the
valid, non-forcibly-disabled protocols, restricted to the user-forced ones
when one of those is a candidate), ties broken by the lowest protocol id.
The claim's version — the minimizer over all candidates at every `L` — fails
off the region starts and in the presence of user-forced candidates. -/
theorem c1_threshold_lookup_best (proto_mask : Nat) (proto_caps : Nat → ucp_proto_caps_t)
    (tbl : List ucp_proto_threshold_elem_t) (L : Nat)
    (hmask : proto_mask < 2 ^ UCP_PROTO_MAX_COUNT)
    (hok : ucp_proto_select_elem_init_thresh proto_mask proto_caps = .ok tbl)
    (hL : IsRegionStart proto_mask proto_caps L) :
    ∃ e, ucp_proto_thresholds_search_slow tbl L = some e ∧
      claimBestProtoForced proto_caps proto_mask L e.proto_id := by
  obtain ⟨hcov, hne, hlast⟩ := elem_init_thresh_cover proto_mask proto_caps tbl hok
  have hLle : L ≤ SIZE_MAX := regionStart_le _ _ _ hL
  obtain ⟨i, e, hget, hsearch, hle, hprev⟩ := search_slow_covering tbl L hne hlast hLle
  refine ⟨e, hsearch, ?_⟩
  rcases tableCoverOK_get proto_mask proto_caps tbl 0 i e hcov hget with
    hcase | ⟨j, d, hji, hgj, hcase⟩
  · exact bestIdAt_claimBest proto_mask proto_caps L e.proto_id hmask
      (hcase.2 L hL (Nat.zero_le _) hle)
  · have hdlt : d.max_msg_length < L := hprev j d hji hgj
    exact bestIdAt_claimBest proto_mask proto_caps L e.proto_id hmask
      (hcase.2 L hL (by omega) hle)

/-- C3 (amended): if protocol `p` carries the only finite user threshold `T`
of the mask and is valid at every length, then the lookup on a successfully
built table selects `p` exactly at the lengths from `T` on.  The claim's
version — without the only-finite-threshold hypothesis — fails when several
forced protocols compete. -/
theorem c3_forced_protocol_selection (proto_mask : Nat)
    (proto_caps : Nat → ucp_proto_caps_t)
    (tbl : List ucp_proto_threshold_elem_t) (p T L : Nat)
    (hmask : proto_mask < 2 ^ UCP_PROTO_MAX_COUNT)
    (hok : ucp_proto_select_elem_init_thresh proto_mask proto_caps = .ok tbl)
    (hbit : proto_mask.testBit p = true)
    (hT : (proto_caps p).cfg_thresh = .val T)
    (hvalid : ∀ L2, L2 ≤ SIZE_MAX → validAt (proto_caps p) L2)
    (huniq : ∀ q, proto_mask.testBit q = true → q ≠ p →
      ∀ t, (proto_caps q).cfg_thresh ≠ .val t)
    (hL : L ≤ SIZE_MAX) :
    ∃ e, ucp_proto_thresholds_search_slow tbl L = some e ∧
      (T ≤ L → e.proto_id = p) ∧ (L < T → e.proto_id ≠ p) := by
  obtain ⟨hcov, hne, hlast⟩ := elem_init_thresh_cover proto_mask proto_caps tbl hok
  obtain ⟨i, e, hget, hsearch, hle, hprev⟩ := search_slow_covering tbl L hne hlast hL
  obtain ⟨m, hm, hmle, hmend⟩ := regionOf_exists proto_mask proto_caps L hL
  have hmle2 : m ≤ SIZE_MAX := regionStart_le _ _ _ hm
  have hcomp : (competeMask proto_mask proto_caps m).testBit e.proto_id = true := by
    rcases tableCoverOK_get proto_mask proto_caps tbl 0 i e hcov hget with
      hcase | ⟨j, d, hji, hgj, hcase⟩
    · exact hcase.1 m hm (by omega) (by omega)
    · have hdlt : d.max_msg_length < L := hprev j d hji hgj
      exact hcase.1 m hm (by omega) (by omega)
  refine ⟨e, hsearch, ?_, ?_⟩
  · intro hTL
    have hmT : T ≤ m := by
      by_contra hc
      push_neg at hc
      have hend := regionEnd_le_thresh proto_mask proto_caps m p T hmask hbit
        (hvalid m hmle2).1 hT hc
      omega
    have hpvalid : (selectNextCalc proto_mask proto_caps m).valid_mask.testBit p = true := by
      rw [selectNextCalc_valid_iff proto_mask proto_caps m hmask p]
      refine ⟨hbit, hvalid m hmle2, ?_⟩
      rintro (hinf | ⟨t, htv, hlt⟩)
      · rw [hT] at hinf
        exact absurd hinf (by simp)
      · rw [hT] at htv
        injection htv with hteq
        omega
    have hpforced : (selectNextCalc proto_mask proto_caps m).forced_mask.testBit p = true := by
      rw [selectNextCalc_forced_iff proto_mask proto_caps m hmask p]
      exact ⟨hbit, (hvalid m hmle2).1, ⟨T, hT, hmT⟩⟩
    have hand : (selectNextCalc proto_mask proto_caps m).forced_mask &&&
        (selectNextCalc proto_mask proto_caps m).valid_mask ≠ 0 := by
      intro h0
      have hbp : ((selectNextCalc proto_mask proto_caps m).forced_mask &&&
          (selectNextCalc proto_mask proto_caps m).valid_mask).testBit p = true := by
        rw [Nat.testBit_and, hpforced, hpvalid]
        rfl
      rw [h0, Nat.zero_testBit] at hbp
      exact absurd hbp (by simp)
    have hcomp2 : ((selectNextCalc proto_mask proto_caps m).forced_mask &&&
        (selectNextCalc proto_mask proto_caps m).valid_mask).testBit e.proto_id = true := by
      have hcm : competeMask proto_mask proto_caps m =
          (selectNextCalc proto_mask proto_caps m).forced_mask &&&
            (selectNextCalc proto_mask proto_caps m).valid_mask := by
        simp only [competeMask]
        rw [if_pos hand]
      rw [← hcm]
      exact hcomp
    rw [Nat.testBit_and, Bool.and_eq_true] at hcomp2
    have hef := hcomp2.1
    rw [selectNextCalc_forced_iff proto_mask proto_caps m hmask e.proto_id] at hef
    obtain ⟨hebit, -, ⟨t2, ht2, -⟩⟩ := hef
    by_contra hnep
    exact huniq e.proto_id hebit hnep t2 ht2
  · intro hLT hep
    rw [hep] at hcomp
    have hval := competeMask_subset_valid proto_mask proto_caps m p hcomp
    rw [selectNextCalc_valid_iff proto_mask proto_caps m hmask p] at hval
    exact hval.2.2 (Or.inr ⟨T, hT, by omega⟩)

unseal Rat.add Rat.mul Rat.sub Rat.inv Rat.ofScientific in
/-- C1 counterexample: with protocol 0 of cost `L` and protocol 1 of constant
cost `10.25`, the builder hands over at the floored intersection 10, so the
lookup at `L = 10` returns protocol 0 — but the cost minimizer at `10.5`, as
the claim demands, is protocol 1 (cost `10.25` against `10.5`). -/
theorem c1_claim_counterexample :
    ucp_proto_select_elem_init_thresh 3 exC1caps = .ok [⟨10, 0⟩, ⟨SIZE_MAX, 1⟩] ∧
    ucp_proto_thresholds_search_slow [⟨10, 0⟩, ⟨SIZE_MAX, 1⟩] 10 = some ⟨10, 0⟩ ∧
    claimBestProto exC1caps 3 10 1 ∧ ¬ claimBestProto exC1caps 3 10 0 :=
  ⟨by decide, by decide, by decide, by decide⟩

unseal Rat.add Rat.mul Rat.sub Rat.inv Rat.ofScientific in
theorem c1_threshold_lookup_best_witness :
    ((3 : Nat) < 2 ^ UCP_PROTO_MAX_COUNT ∧
     ucp_proto_select_elem_init_thresh 3 exC1caps = .ok [⟨10, 0⟩, ⟨SIZE_MAX, 1⟩] ∧
     IsRegionStart 3 exC1caps 0) ∧
    (∃ e, ucp_proto_thresholds_search_slow [⟨10, 0⟩, ⟨SIZE_MAX, 1⟩] 0 = some e ∧
      claimBestProtoForced exC1caps 3 0 e.proto_id) := by
  have hok : ucp_proto_select_elem_init_thresh 3 exC1caps =
      .ok [⟨10, 0⟩, ⟨SIZE_MAX, 1⟩] := by decide
  exact ⟨⟨by decide, hok, IsRegionStart.zero⟩,
    c1_threshold_lookup_best 3 exC1caps [⟨10, 0⟩, ⟨SIZE_MAX, 1⟩] 0 (by decide) hok
      IsRegionStart.zero⟩

unseal Rat.add Rat.mul Rat.sub Rat.inv Rat.ofScientific in
/-- C3 counterexample: protocol 1 has the finite threshold 10 and is valid at
every length, yet at `L = 12 ≥ 10` the lookup returns protocol 0, whose
threshold 5 also forces it and whose cost is lower. -/
theorem c3_claim_counterexample :
    ucp_proto_select_elem_init_thresh 7 exC3caps = .ok [⟨4, 2⟩, ⟨SIZE_MAX, 0⟩] ∧
    (exC3caps 1).cfg_thresh = .val 10 ∧
    (∀ L, L ≤ SIZE_MAX → validAt (exC3caps 1) L) ∧
    ucp_proto_thresholds_search_slow [⟨4, 2⟩, ⟨SIZE_MAX, 0⟩] 12 = some ⟨SIZE_MAX, 0⟩ ∧
    (⟨SIZE_MAX, 0⟩ : ucp_proto_threshold_elem_t).proto_id ≠ 1 := by
  refine ⟨by decide, rfl, ?_, by decide, by decide⟩
  intro L hL
  constructor
  · show (0 : Nat) ≤ L
    exact Nat.zero_le L
  · show (containingRange (exC3caps 1) L).isSome = true
    have hc : containingRange (exC3caps 1) L = some ⟨SIZE_MAX, ⟨1, 0⟩⟩ := by
      show List.find? (fun r => decide (L ≤ r.max_length))
          ([⟨SIZE_MAX, ⟨1, 0⟩⟩] : List ucp_proto_perf_range_t) =
        some (⟨SIZE_MAX, ⟨1, 0⟩⟩ : ucp_proto_perf_range_t)
      rw [List.find?_cons_of_pos _ (by simpa using hL)]
    rw [hc]
    rfl

unseal Rat.add Rat.mul Rat.sub Rat.inv Rat.ofScientific in
theorem c3_forced_protocol_selection_witness :
    ((3 : Nat) < 2 ^ UCP_PROTO_MAX_COUNT ∧
     ucp_proto_select_elem_init_thresh 3 exC3okCaps = .ok [⟨9, 0⟩, ⟨SIZE_MAX, 1⟩] ∧
     (3 : Nat).testBit 1 = true ∧ (exC3okCaps 1).cfg_thresh = .val 10 ∧
     (12 : Nat) ≤ SIZE_MAX) ∧
    (∃ e, ucp_proto_thresholds_search_slow [⟨9, 0⟩, ⟨SIZE_MAX, 1⟩] 12 = some e ∧
      (10 ≤ 12 → e.proto_id = 1) ∧ (12 < 10 → e.proto_id ≠ 1)) := by
  have hok : ucp_proto_select_elem_init_thresh 3 exC3okCaps =
      .ok [⟨9, 0⟩, ⟨SIZE_MAX, 1⟩] := by decide
  have hvalid : ∀ L2, L2 ≤ SIZE_MAX → validAt (exC3okCaps 1) L2 := by
    intro L2 hL2
    constructor
    · show (0 : Nat) ≤ L2
      exact Nat.zero_le L2
    · show (containingRange (exC3okCaps 1) L2).isSome = true
      have hc : containingRange (exC3okCaps 1) L2 = some ⟨SIZE_MAX, ⟨1, 0⟩⟩ := by
        show List.find? (fun r => decide (L2 ≤ r.max_length))
            ([⟨SIZE_MAX, ⟨1, 0⟩⟩] : List ucp_proto_perf_range_t) =
          some (⟨SIZE_MAX, ⟨1, 0⟩⟩ : ucp_proto_perf_range_t)
        rw [List.find?_cons_of_pos _ (by simpa using hL2)]
      rw [hc]
      rfl
  have huniq : ∀ q, (3 : Nat).testBit q = true → q ≠ 1 →
      ∀ t, (exC3okCaps q).cfg_thresh ≠ .val t := by
    intro q hq hne t
    have hq2 : q < 2 := by
      by_contra hcq
      push_neg at hcq
      have h1 := Nat.testBit_implies_ge hq
      have h2 : 2 ^ 2 ≤ 2 ^ q := Nat.pow_le_pow_right (by norm_num) hcq
      omega
    interval_cases q
    · intro hcon
      exact absurd hcon (by simp [exC3okCaps])
    · exact absurd rfl hne
  exact ⟨⟨by decide, hok, by decide, by decide, by decide⟩,
    c3_forced_protocol_selection 3 exC3okCaps [⟨9, 0⟩, ⟨SIZE_MAX, 1⟩] 1 10 12
      (by decide) hok (by decide) (by decide) hvalid huniq (by decide)⟩
